import Mathlib

/-!
# GF(4) arithmetic, bounded-degree polynomials and Lagrange interpolation

A shallow embedding of `include/algebra.h`.

* A C++ exception is a value of `Error`; a function that can throw returns
  `Except Error _`.  The embedding follows the `throw` statements (the
  `assert` in front of each one tests the same condition).
* `std::array<k, d+1>` is a total map `Fin (d + 1) → k`; a store `a[i] = v`
  is `Function.update a i v`.
* `deg_t` is `std::uint_fast8_t`, 8 bits wide.  `forDeg` is the loop
  `for (deg_t i {lo}; i <= d; ++i)` with that counter, and the definitions named
  `…Fuel` run their loops through it.  For `d ≤ 254` the counter never wraps
  and the loop is a left fold over the indices `lo, …, d` in ascending order
  (`List.finRange (d + 1)`); the definitions without `Fuel` are these folds,
  and the theorems named `…Fuel_eq` state that the two forms agree.  For
  `d = 255` the test `i <= d` always holds and the loop has no exit.
  `operator-` and `operator++` are given as folds only.
* A `std::ostream` is the text written to it so far; `os << v` appends the
  text of `v`, an integer in decimal.
-/

/-- The exceptions thrown by the library, named after their C++ classes. -/
inductive Error where
  | out_of_range
  | invalid_argument
  | overflow_error
  deriving DecidableEq, Repr

/-- Equality of two results is decided constructor by constructor. -/
instance instDecidableEqExcept {ε α : Type} [DecidableEq ε] [DecidableEq α] :
    DecidableEq (Except ε α)
  | .ok a, .ok b => decidable_of_iff (a = b) (by simp)
  | .error e, .error f => decidable_of_iff (e = f) (by simp)
  | .ok _, .error _ => isFalse (by simp)
  | .error _, .ok _ => isFalse (by simp)

/-- The class `𝔽₄`: its only data member `value_`.  Every object of the class
has `value_ < 4`: the constructor throws otherwise, and `operator++` wraps. -/
structure 𝔽₄ where
  value_ : Fin 4
  deriving DecidableEq, Repr

namespace 𝔽₄

/-- The four objects of the class, in the order of their `value_`. -/
instance : Fintype 𝔽₄ :=
  ⟨⟨([⟨0⟩, ⟨1⟩, ⟨2⟩, ⟨3⟩] : List 𝔽₄), by decide⟩, by rintro ⟨a⟩; revert a; decide⟩

/-- The constructor `𝔽₄(val_t value = 0)`. -/
def ctor (value : Nat) : Except Error 𝔽₄ :=
  if h : value > 3 then .error .out_of_range else .ok ⟨⟨value, by omega⟩⟩

/-- The type `Table = std::array<std::array<val_t, 4>, 4>`. -/
abbrev Table := Mathlib.Vector (Mathlib.Vector Nat 4) 4

def addition : Table :=
  ⟨[⟨[0, 1, 2, 3], rfl⟩,
    ⟨[1, 0, 3, 2], rfl⟩,
    ⟨[2, 3, 0, 1], rfl⟩,
    ⟨[3, 2, 1, 0], rfl⟩], rfl⟩

def multiplication : Table :=
  ⟨[⟨[0, 0, 0, 0], rfl⟩,
    ⟨[0, 1, 2, 3], rfl⟩,
    ⟨[0, 2, 3, 1], rfl⟩,
    ⟨[0, 3, 1, 2], rfl⟩], rfl⟩

def division : Table :=
  ⟨[⟨[4, 0, 0, 0], rfl⟩,
    ⟨[4, 1, 3, 2], rfl⟩,
    ⟨[4, 2, 1, 3], rfl⟩,
    ⟨[4, 3, 2, 1], rfl⟩], rfl⟩

/-- The object `𝔽₄{}` (also `𝔽₄{0}`): the constructor run on its default
argument `0`, which passes the range check. -/
instance : Zero 𝔽₄ := ⟨⟨0⟩⟩

/-- The object `𝔽₄{1}`. -/
instance : One 𝔽₄ := ⟨⟨1⟩⟩

/-- The function `operator+(const 𝔽₄&, const 𝔽₄&)`. -/
def add (elt1 elt2 : 𝔽₄) : Except Error 𝔽₄ :=
  ctor ((addition.get elt1.value_).get elt2.value_)

/-- The function `operator-(const 𝔽₄&, const 𝔽₄&)`; it reads the addition table. -/
def sub (elt1 elt2 : 𝔽₄) : Except Error 𝔽₄ :=
  ctor ((addition.get elt1.value_).get elt2.value_)

/-- The function `operator*(const 𝔽₄&, const 𝔽₄&)`. -/
def mul (elt1 elt2 : 𝔽₄) : Except Error 𝔽₄ :=
  ctor ((multiplication.get elt1.value_).get elt2.value_)

/-- The function `operator/(const 𝔽₄&, const 𝔽₄&)`. -/
def div (elt1 elt2 : 𝔽₄) : Except Error 𝔽₄ :=
  if elt2.value_ = 0 then .error .invalid_argument
  else ctor ((division.get elt1.value_).get elt2.value_)

/-- The unary `operator-()`: returns `*this`. -/
def neg (elt : 𝔽₄) : 𝔽₄ := elt

/-- The prefix `operator++()`: `if (++value_ == 4) value_ = 0;`. -/
def incr (elt : 𝔽₄) : 𝔽₄ :=
  if h : elt.value_.val + 1 = 4 then ⟨0⟩ else ⟨⟨elt.value_.val + 1, by omega⟩⟩

/-- The function `operator==(const 𝔽₄&, const 𝔽₄&)`. -/
def eq (elt1 elt2 : 𝔽₄) : Bool := elt1.value_ == elt2.value_

/-- The function `operator!=(const 𝔽₄&, const 𝔽₄&)`. -/
def ne (elt1 elt2 : 𝔽₄) : Bool := elt1.value_ != elt2.value_

end 𝔽₄

/-- The constant `α {2}`. -/
def α : 𝔽₄ := ⟨2⟩

/-- The class `Pol<𝔽₄, d>`: its only data member `coeffs_`, where `coeffs_[i]`
is the coefficient in front of `x^i`. -/
structure Pol (d : Nat) where
  coeffs_ : Fin (d + 1) → 𝔽₄

namespace Pol

variable {d : Nat}

/-- Two polynomials are equal when their coefficients agree index by index. -/
instance : DecidableEq (Pol d) := fun p q =>
  @decidable_of_iff _ (∀ i, p.coeffs_ i = q.coeffs_ i)
    (by cases p; cases q; simp [funext_iff]) (Nat.decidableForallFin _)

/-- A braced coefficient list `{{c₀, c₁, …}}` of at most `d + 1` entries:
aggregate initialisation of `std::array<𝔽₄, d+1>` fills the remaining
entries with `𝔽₄{}`. -/
def ofList (cs : List 𝔽₄) : Pol d := ⟨fun i => cs.getD i.val 0⟩

/-- The object `Pol<𝔽₄, d>{}`: every coefficient is `𝔽₄{}`. -/
instance : Zero (Pol d) := ⟨ofList []⟩

/-- The variable template `𝑥<𝔽₄, d>`, initialised with `{{0, 1}}` (`1 ≤ d`). -/
def x (d : Nat) : Pol d := ofList [0, 1]

/-- The loop of `deg()`, entered with the counter at `degree`. -/
def degLoop (p : Pol d) : (degree : Nat) → degree ≤ d → Nat
  | 0, _ => 0
  | n + 1, h =>
    if 𝔽₄.ne (p.coeffs_ ⟨n + 1, by omega⟩) 0 then n + 1 else degLoop p n (by omega)

/-- The member function `deg()`. -/
def deg (p : Pol d) : Nat := degLoop p d le_rfl

/-- The function `operator==(const Pol&, const Pol&)`: `std::array` equality,
element by element. -/
def eq (pol1 pol2 : Pol d) : Bool :=
  (List.finRange (d + 1)).all fun i => 𝔽₄.eq (pol1.coeffs_ i) (pol2.coeffs_ i)

/-- The function `operator!=(const Pol&, const Pol&)`. -/
def ne (pol1 pol2 : Pol d) : Bool := !(eq pol1 pol2)

/-- The loop of `operator++()` over the indices still to visit, entered with
`carry == true`; it stops at the first coefficient that does not wrap. -/
def incrLoop (coeffs : Fin (d + 1) → 𝔽₄) : List (Fin (d + 1)) → Fin (d + 1) → 𝔽₄
  | [] => coeffs
  | i :: rest =>
    let c := (coeffs i).incr
    let coeffs' := Function.update coeffs i c
    if 𝔽₄.eq c 0 then incrLoop coeffs' rest else coeffs'

/-- The prefix `operator++()` of `Pol`. -/
def incr (p : Pol d) : Pol d := ⟨incrLoop p.coeffs_ (List.finRange (d + 1))⟩

/-- The evaluation `operator()(const k& scalar)`.  The loop state is the pair
`(result, scalar_pow_i)`; the counter runs over `1, …, d`. -/
def eval (p : Pol d) (scalar : 𝔽₄) : Except Error 𝔽₄ := do
  let st ← (List.finRange d).foldlM
    (fun (st : 𝔽₄ × 𝔽₄) (i : Fin d) => do
      let scalar_pow_i ← 𝔽₄.mul st.2 scalar
      let t ← 𝔽₄.mul (p.coeffs_ i.succ) scalar_pow_i
      let result ← 𝔽₄.add st.1 t
      pure (result, scalar_pow_i))
    (p.coeffs_ 0, 1)
  pure st.1

/-- The function `operator+(const Pol&, const Pol&)`. -/
def add (pol1 pol2 : Pol d) : Except Error (Pol d) := do
  let sum ← (List.finRange (d + 1)).foldlM
    (fun (sum : Fin (d + 1) → 𝔽₄) i => do
      let s ← 𝔽₄.add (pol1.coeffs_ i) (pol2.coeffs_ i)
      pure (Function.update sum i s))
    (fun _ => 0)
  pure ⟨sum⟩

/-- The function `operator-(const Pol&, const Pol&)`. -/
def sub (pol1 pol2 : Pol d) : Except Error (Pol d) := do
  let diff ← (List.finRange (d + 1)).foldlM
    (fun (diff : Fin (d + 1) → 𝔽₄) i => do
      let s ← 𝔽₄.sub (pol1.coeffs_ i) (pol2.coeffs_ i)
      pure (Function.update diff i s))
    (fun _ => 0)
  pure ⟨diff⟩

/-- The function `operator*(const Pol&, const Pol&)`: the degree check, then
`prod[i] += pol1.coeffs_[j] * pol2.coeffs_[i-j]` for `j ≤ i ≤ d`. -/
def mul (pol1 pol2 : Pol d) : Except Error (Pol d) :=
  if d < pol1.deg + pol2.deg then .error .overflow_error
  else do
    let prod ← (List.finRange (d + 1)).foldlM
      (fun (prod : Fin (d + 1) → 𝔽₄) (i : Fin (d + 1)) =>
        (List.finRange (i.val + 1)).foldlM
          (fun (prod : Fin (d + 1) → 𝔽₄) (j : Fin (i.val + 1)) => do
            let t ← 𝔽₄.mul (pol1.coeffs_ ⟨j.val, by omega⟩)
              (pol2.coeffs_ ⟨i.val - j.val, by omega⟩)
            let s ← 𝔽₄.add (prod i) t
            pure (Function.update prod i s))
          prod)
      (fun _ => 0)
    pure ⟨prod⟩

end Pol

/-- The argument of `term_i *= …` in `lagrange`, for the sample `i` and the
index `j ≠ i`: the polynomial
`Pol<k, d>{{key_values[i] * key_indexes[j] / (key_indexes[j] - key_indexes[i]),
key_values[i] / (key_indexes[i] - key_indexes[j])}}`, its two entries computed
in the order written.  The C++ list has two entries, so the template needs
`d ≥ 1`; for `d = 0` there is no index `j ≠ i` and no factor is ever built. -/
def lagrange.factor {d : Nat} (key_indexes key_values : Fin (d + 1) → 𝔽₄)
    (i j : Fin (d + 1)) : Except Error (Pol d) := do
  let num ← 𝔽₄.mul (key_values i) (key_indexes j)
  let den ← 𝔽₄.sub (key_indexes j) (key_indexes i)
  let c₀ ← 𝔽₄.div num den
  let den' ← 𝔽₄.sub (key_indexes i) (key_indexes j)
  let c₁ ← 𝔽₄.div (key_values i) den'
  pure (Pol.ofList [c₀, c₁])

/-- The inner loop of `lagrange` over the indices `js`, entered with `term_i`:
`if (i==j) continue; term_i *= Pol<k, d>{{…}};`. -/
def lagrange.termLoop {d : Nat} (key_indexes key_values : Fin (d + 1) → 𝔽₄)
    (i : Fin (d + 1)) (js : List (Fin (d + 1))) (term_i : Pol d) :
    Except Error (Pol d) :=
  js.foldlM
    (fun (term_i : Pol d) (j : Fin (d + 1)) =>
      if i = j then pure term_i
      else do
        let factor ← lagrange.factor key_indexes key_values i j
        Pol.mul term_i factor)
    term_i

/-- The function template `lagrange<𝔽₄, d>(key_indexes, key_values)`: for each
`i`, `term_i` starts as `{{1}}` and runs through the inner loop, then
`result += term_i`. -/
def lagrange {d : Nat} (key_indexes key_values : Fin (d + 1) → 𝔽₄) :
    Except Error (Pol d) :=
  (List.finRange (d + 1)).foldlM
    (fun (result : Pol d) (i : Fin (d + 1)) => do
      let term_i ← lagrange.termLoop key_indexes key_values i
        (List.finRange (d + 1)) (Pol.ofList [1])
      Pol.add result term_i)
    0

/-- The function `operator<<(std::ostream&, const 𝔽₄&)`; the stream is the text
written to it so far. -/
def 𝔽₄.print (os : String) (elt : 𝔽₄) : Except Error String :=
  match elt.value_.val with
  | 0 => .ok (os ++ "0")
  | 1 => .ok (os ++ "1")
  | 2 => .ok (os ++ "alpha")
  | 3 => .ok (os ++ "alpha+1")
  | _ => .error .out_of_range

/-- The function `operator<<(std::ostream&, const Pol<k, d>&)`: for
`i = 0, …, d` the `switch (d-i)` writes the coefficient `coeffs_[d-i]`, followed
by nothing, by `".x + "`, or by `".x^"`, the integer `d-i` and `" + "`. -/
def Pol.print {d : Nat} (os : String) (poly : Pol d) : Except Error String :=
  (List.finRange (d + 1)).foldlM
    (fun (os : String) (i : Fin (d + 1)) =>
      match d - i.val with
      | 0 => 𝔽₄.print os (poly.coeffs_ ⟨d - i.val, by omega⟩)
      | 1 => do
        let os ← 𝔽₄.print os (poly.coeffs_ ⟨d - i.val, by omega⟩)
        pure (os ++ ".x + ")
      | _ + 2 => do
        let os ← 𝔽₄.print os (poly.coeffs_ ⟨d - i.val, by omega⟩)
        pure (os ++ ".x^" ++ toString (d - i.val) ++ " + "))
    os

/-- The loop `for (deg_t i {lo}; i <= d; ++i) body` with its counter as the
C++ has it: `deg_t` is `std::uint_fast8_t`, 8 bits wide, so `++i` takes 255 to
0.  A pass of the body returns the new state, throws, or does not end (`none`).
`fuel` bounds the number of passes, and the result is `none` when the loop has
not ended within that many. -/
def forDeg {σ : Type} (d : Nat) (body : (i : Nat) → i ≤ d → σ → Option (Except Error σ)) :
    Nat → Nat → σ → Option (Except Error σ)
  | 0, _, _ => none
  | fuel + 1, i, s =>
    if h : i ≤ d then
      match body i h s with
      | some (.ok s') => forDeg d body fuel ((i + 1) % 256) s'
      | r => r
    else some (.ok s)

/-- The evaluation `operator()(const k& scalar)` with the 8-bit counter of its loop
`for (deg_t i {1}; i <= d; ++i)`. -/
def Pol.evalFuel {d : Nat} (fuel : Nat) (p : Pol d) (scalar : 𝔽₄) :
    Option (Except Error 𝔽₄) :=
  (forDeg d
    (fun i h (st : 𝔽₄ × 𝔽₄) => some (do
      let scalar_pow_i ← 𝔽₄.mul st.2 scalar
      let t ← 𝔽₄.mul (p.coeffs_ ⟨i, Nat.lt_succ_of_le h⟩) scalar_pow_i
      let result ← 𝔽₄.add st.1 t
      pure (result, scalar_pow_i)))
    fuel 1 (p.coeffs_ 0, 1)).map (Except.map Prod.fst)

/-- The function `operator+(const Pol&, const Pol&)` with the 8-bit counter of its
loop `for (deg_t i {}; i <= d; ++i)`. -/
def Pol.addFuel {d : Nat} (fuel : Nat) (pol1 pol2 : Pol d) : Option (Except Error (Pol d)) :=
  (forDeg d
    (fun i h (sum : Fin (d + 1) → 𝔽₄) => some (do
      let s ← 𝔽₄.add (pol1.coeffs_ ⟨i, Nat.lt_succ_of_le h⟩)
        (pol2.coeffs_ ⟨i, Nat.lt_succ_of_le h⟩)
      pure (Function.update sum ⟨i, Nat.lt_succ_of_le h⟩ s)))
    fuel 0 (fun _ => 0)).map (Except.map Pol.mk)

/-- The function `operator*(const Pol&, const Pol&)` with the 8-bit counters of its
loops `for (deg_t i {}; i <= d; ++i)` and `for (deg_t j {}; j <= i; ++j)`; the
degree check comes first. -/
def Pol.mulFuel {d : Nat} (fuel : Nat) (pol1 pol2 : Pol d) : Option (Except Error (Pol d)) :=
  if d < pol1.deg + pol2.deg then some (.error .overflow_error)
  else
    (forDeg d
      (fun i hi (prod : Fin (d + 1) → 𝔽₄) =>
        forDeg i
          (fun j hj (prod : Fin (d + 1) → 𝔽₄) => some (do
            let t ← 𝔽₄.mul (pol1.coeffs_ ⟨j, by omega⟩) (pol2.coeffs_ ⟨i - j, by omega⟩)
            let s ← 𝔽₄.add (prod ⟨i, Nat.lt_succ_of_le hi⟩) t
            pure (Function.update prod ⟨i, Nat.lt_succ_of_le hi⟩ s)))
          fuel 0 prod)
      fuel 0 (fun _ => 0)).map (Except.map Pol.mk)

/-- The function `operator<<(std::ostream&, const Pol<k, d>&)` with the 8-bit
counter of its loop `for (deg_t i {}; i <= d; ++i)`. -/
def Pol.printFuel {d : Nat} (fuel : Nat) (os : String) (poly : Pol d) :
    Option (Except Error String) :=
  forDeg d
    (fun i _ (os : String) => some (
      match d - i with
      | 0 => 𝔽₄.print os (poly.coeffs_ ⟨d - i, by omega⟩)
      | 1 => do
        let os ← 𝔽₄.print os (poly.coeffs_ ⟨d - i, by omega⟩)
        pure (os ++ ".x + ")
      | _ + 2 => do
        let os ← 𝔽₄.print os (poly.coeffs_ ⟨d - i, by omega⟩)
        pure (os ++ ".x^" ++ toString (d - i) ++ " + ")))
    fuel 0 os

/-- The inner loop of `lagrange` with the 8-bit counter of
`for (deg_t j {}; j <= d; ++j)`, entered with `term_i`; `term_i *= …` runs
`operator*` with its own counters. -/
def lagrange.termLoopFuel {d : Nat} (fuel : Nat) (key_indexes key_values : Fin (d + 1) → 𝔽₄)
    (i : Fin (d + 1)) (term_i : Pol d) : Option (Except Error (Pol d)) :=
  forDeg d
    (fun j hj (term_i : Pol d) =>
      if i = ⟨j, Nat.lt_succ_of_le hj⟩ then some (.ok term_i)
      else
        match lagrange.factor key_indexes key_values i ⟨j, Nat.lt_succ_of_le hj⟩ with
        | .ok factor => Pol.mulFuel fuel term_i factor
        | .error e => some (.error e))
    fuel 0 term_i

/-- The function template `lagrange<𝔽₄, d>` with the 8-bit counter of
`for (deg_t i {}; i <= d; ++i)`; `result += term_i` runs `operator+` with its
own counter. -/
def lagrangeFuel {d : Nat} (fuel : Nat) (key_indexes key_values : Fin (d + 1) → 𝔽₄) :
    Option (Except Error (Pol d)) :=
  forDeg d
    (fun i hi (result : Pol d) =>
      match lagrange.termLoopFuel fuel key_indexes key_values ⟨i, Nat.lt_succ_of_le hi⟩
          (Pol.ofList [1]) with
      | some (.ok term_i) => Pol.addFuel fuel result term_i
      | r => r)
    fuel 0 0

/-! ## The values of the field operators -/

namespace 𝔽₄

/-- The value a call returns; `0` stands in for a thrown exception. -/
def val (r : Except Error 𝔽₄) : 𝔽₄ :=
  match r with
  | .ok v => v
  | .error _ => 0

/-- The value of `a + b`. -/
instance : Add 𝔽₄ := ⟨fun a b => val (add a b)⟩

/-- The value of `a - b`. -/
instance : Sub 𝔽₄ := ⟨fun a b => val (sub a b)⟩

/-- The value of `a * b`. -/
instance : Mul 𝔽₄ := ⟨fun a b => val (mul a b)⟩

/-- The value of `a / b`, with `a / 0 = 0`. -/
instance : Div 𝔽₄ := ⟨fun a b => val (div a b)⟩

/-- The value of `-a`. -/
instance : Neg 𝔽₄ := ⟨neg⟩

/-- The value of `1 / a`, with `0⁻¹ = 0`. -/
instance : Inv 𝔽₄ := ⟨fun a => val (div 1 a)⟩

theorem add_assoc' : ∀ a b c : 𝔽₄, a + b + c = a + (b + c) := by decide
theorem zero_add' : ∀ a : 𝔽₄, 0 + a = a := by decide
theorem add_zero' : ∀ a : 𝔽₄, a + 0 = a := by decide
theorem add_comm' : ∀ a b : 𝔽₄, a + b = b + a := by decide
theorem neg_add_cancel' : ∀ a : 𝔽₄, -a + a = 0 := by decide
theorem sub_eq_add_neg' : ∀ a b : 𝔽₄, a - b = a + -b := by decide
theorem left_distrib' : ∀ a b c : 𝔽₄, a * (b + c) = a * b + a * c := by decide
theorem right_distrib' : ∀ a b c : 𝔽₄, (a + b) * c = a * c + b * c := by decide
theorem zero_mul' : ∀ a : 𝔽₄, 0 * a = 0 := by decide
theorem mul_zero' : ∀ a : 𝔽₄, a * 0 = 0 := by decide
theorem mul_assoc' : ∀ a b c : 𝔽₄, a * b * c = a * (b * c) := by decide
theorem one_mul' : ∀ a : 𝔽₄, 1 * a = a := by decide
theorem mul_one' : ∀ a : 𝔽₄, a * 1 = a := by decide
theorem mul_comm' : ∀ a b : 𝔽₄, a * b = b * a := by decide
theorem mul_inv_cancel' : ∀ a : 𝔽₄, a ≠ 0 → a * a⁻¹ = 1 := by decide
theorem inv_zero' : (0 : 𝔽₄)⁻¹ = 0 := by decide
theorem div_eq_mul_inv' : ∀ a b : 𝔽₄, a / b = a * b⁻¹ := by decide

/-- The values of the operators make `𝔽₄` a commutative ring. -/
instance : CommRing 𝔽₄ :=
  { (inferInstance : Add 𝔽₄), (inferInstance : Mul 𝔽₄), (inferInstance : Neg 𝔽₄),
    (inferInstance : Sub 𝔽₄), (inferInstance : Zero 𝔽₄), (inferInstance : One 𝔽₄) with
    add_assoc := add_assoc'
    zero_add := zero_add'
    add_zero := add_zero'
    add_comm := add_comm'
    neg_add_cancel := neg_add_cancel'
    sub_eq_add_neg := sub_eq_add_neg'
    left_distrib := left_distrib'
    right_distrib := right_distrib'
    zero_mul := zero_mul'
    mul_zero := mul_zero'
    mul_assoc := mul_assoc'
    one_mul := one_mul'
    mul_one := mul_one'
    mul_comm := mul_comm'
    nsmul := nsmulRec
    zsmul := zsmulRec }

/-- The values of the operators make `𝔽₄` a field. -/
instance : Field 𝔽₄ :=
  { (inferInstance : CommRing 𝔽₄), (inferInstance : Inv 𝔽₄), (inferInstance : Div 𝔽₄) with
    exists_pair_ne := ⟨0, 1, by decide⟩
    mul_inv_cancel := mul_inv_cancel'
    inv_zero := inv_zero'
    div_eq_mul_inv := div_eq_mul_inv'
    nnqsmul := _
    qsmul := _ }

end 𝔽₄

/-! ## Definitions used to state the properties -/

namespace Pol

variable {d : Nat}

/-- The coefficient in front of `x^n`, for every `n`: `coeffs_[n]` for `n ≤ d`
and `0` above the degree bound. -/
def coeff (p : Pol d) (n : Nat) : 𝔽₄ :=
  if h : n < d + 1 then p.coeffs_ ⟨n, h⟩ else 0

/-- The coefficient in front of `x^n` in the untruncated product of two
polynomials: `Σ_j p[j]·q[n-j]`. -/
def fullConv (p q : Pol d) (n : Nat) : 𝔽₄ :=
  ∑ j in Finset.range (n + 1), p.coeff j * q.coeff (n - j)

end Pol

/-- The number whose base-4 digits, least significant first, are the `value_`
of the coefficients at the indices listed. -/
def Pol.rank {d : Nat} (coeffs : Fin (d + 1) → 𝔽₄) : List (Fin (d + 1)) → Nat
  | [] => 0
  | i :: rest => (coeffs i).value_.val + 4 * Pol.rank coeffs rest

/-- The text of a field element: `"0"`, `"1"`, `"alpha"`, `"alpha+1"` for the
`value_` 0, 1, 2, 3. -/
def 𝔽₄.text (c : 𝔽₄) : String :=
  match c.value_.val with
  | 0 => "0"
  | 1 => "1"
  | 2 => "alpha"
  | _ => "alpha+1"

/-- The term of a rendered polynomial for the power `n`: the text of the
coefficient, followed by nothing for `n = 0`, by `".x"` for `n = 1` and by
`".x^"` and the decimal `n` for `n ≥ 2`. -/
def Pol.term {d : Nat} (p : Pol d) : Nat → String
  | 0 => (p.coeff 0).text
  | 1 => (p.coeff 1).text ++ ".x"
  | n + 2 => (p.coeff (n + 2)).text ++ ".x^" ++ toString (n + 2)

/-! ## Loops whose body never throws -/

namespace 𝔽₄

theorem add_ok (a b : 𝔽₄) : add a b = .ok (a + b) := by revert a b; decide

theorem sub_ok (a b : 𝔽₄) : sub a b = .ok (a - b) := by revert a b; decide

theorem mul_ok (a b : 𝔽₄) : mul a b = .ok (a * b) := by revert a b; decide

theorem div_ok (a b : 𝔽₄) (h : b ≠ 0) : div a b = .ok (a / b) := by
  revert a b; decide

theorem div_zero_err (a : 𝔽₄) : div a 0 = .error .invalid_argument := by
  revert a; decide

theorem ne_iff (a b : 𝔽₄) : ne a b = true ↔ a ≠ b := by revert a b; decide

theorem eq_iff (a b : 𝔽₄) : eq a b = true ↔ a = b := by revert a b; decide

theorem sub_eq_add (a b : 𝔽₄) : a - b = a + b := by revert a b; decide

end 𝔽₄

@[simp] theorem ok_bind {ε α β : Type} (a : α) (f : α → Except ε β) :
    (Except.ok a >>= f) = f a := rfl

@[simp] theorem error_bind {ε α β : Type} (e : ε) (f : α → Except ε β) :
    (Except.error e >>= f) = .error e := rfl

theorem foldlM_ok {σ ι : Type} (f : σ → ι → Except Error σ) (g : σ → ι → σ)
    (h : ∀ s i, f s i = .ok (g s i)) (l : List ι) (s : σ) :
    l.foldlM f s = .ok (l.foldl g s) := by
  induction l generalizing s with
  | nil => rfl
  | cons a l ih =>
    simp only [List.foldlM, List.foldl, h]
    exact ih _

theorem foldl_update_mem {ι α : Type} [DecidableEq ι] (g : ι → α) (l : List ι)
    (init : ι → α) :
    l.foldl (fun a i => Function.update a i (g i)) init =
      fun k => if k ∈ l then g k else init k := by
  induction l generalizing init with
  | nil => simp
  | cons a l ih =>
    simp only [List.foldl, ih]
    funext k
    by_cases hk : k ∈ l
    · simp [hk]
    · by_cases hka : k = a
      · subst hka; simp [hk]
      · simp [hk, hka]

theorem foldl_accum_at {ι κ : Type} [DecidableEq ι] (i : ι) (t : κ → 𝔽₄) (l : List κ)
    (init : ι → 𝔽₄) :
    l.foldl (fun a j => Function.update a i (a i + t j)) init =
      Function.update init i (init i + (l.map t).sum) := by
  induction l generalizing init with
  | nil => simp
  | cons a l ih =>
    simp only [List.foldl, ih, List.map, List.sum_cons, Function.update_same,
      Function.update_idem, add_assoc]

theorem foldl_accum_mem {ι : Type} [DecidableEq ι] (S : ι → 𝔽₄) (l : List ι)
    (hl : l.Nodup) (init : ι → 𝔽₄) :
    l.foldl (fun a i => Function.update a i (a i + S i)) init =
      fun k => if k ∈ l then init k + S k else init k := by
  induction l generalizing init with
  | nil => simp
  | cons a l ih =>
    have hal : a ∉ l := (List.nodup_cons.mp hl).1
    simp only [List.foldl, ih (List.nodup_cons.mp hl).2]
    funext k
    by_cases hka : k = a
    · subst hka; simp [hal]
    · by_cases hk : k ∈ l <;> simp [hk, hka]

namespace Pol

variable {d : Nat}

theorem ext_iff {p q : Pol d} : p = q ↔ ∀ i, p.coeffs_ i = q.coeffs_ i := by
  cases p; cases q; simp [funext_iff]

theorem eq_iff_eq (p q : Pol d) : eq p q = true ↔ p = q := by
  simp [eq, 𝔽₄.eq_iff, ext_iff]

theorem coeff_val (p : Pol d) (i : Fin (d + 1)) : p.coeff i.val = p.coeffs_ i := by
  simp [coeff]

theorem coeff_of_le (p : Pol d) {n : Nat} (h : n < d + 1) :
    p.coeff n = p.coeffs_ ⟨n, h⟩ := by
  simp [coeff, h]

theorem coeff_of_gt (p : Pol d) {n : Nat} (h : d < n) : p.coeff n = 0 := by
  simp [coeff]; omega

theorem add_eq_ok (p q : Pol d) :
    add p q = .ok ⟨fun i => p.coeffs_ i + q.coeffs_ i⟩ := by
  unfold add
  rw [foldlM_ok _ (fun (sum : Fin (d + 1) → 𝔽₄) i =>
    Function.update sum i (p.coeffs_ i + q.coeffs_ i))]
  · simp [foldl_update_mem]
  · intro s i; simp [𝔽₄.add_ok]

theorem sub_eq_ok (p q : Pol d) :
    sub p q = .ok ⟨fun i => p.coeffs_ i - q.coeffs_ i⟩ := by
  unfold sub
  rw [foldlM_ok _ (fun (sum : Fin (d + 1) → 𝔽₄) i =>
    Function.update sum i (p.coeffs_ i - q.coeffs_ i))]
  · simp [foldl_update_mem]
  · intro s i; simp [𝔽₄.sub_ok]

theorem eval_loop (c : Nat → 𝔽₄) (x : 𝔽₄) (m : Nat) :
    (List.range m).foldl
      (fun (st : 𝔽₄ × 𝔽₄) i => (st.1 + c (i + 1) * (st.2 * x), st.2 * x)) (c 0, 1) =
      (∑ i in Finset.range (m + 1), c i * x ^ i, x ^ m) := by
  induction m with
  | zero => simp
  | succ m ih =>
    rw [List.range_succ, List.foldl_append, ih]
    simp [Finset.sum_range_succ _ (m + 1), pow_succ]

theorem eval_eq_ok (p : Pol d) (x : 𝔽₄) :
    eval p x = .ok (∑ i : Fin (d + 1), p.coeffs_ i * x ^ i.val) := by
  unfold eval
  rw [foldlM_ok _ (fun (st : 𝔽₄ × 𝔽₄) (i : Fin d) =>
    (st.1 + p.coeff (i.val + 1) * (st.2 * x), st.2 * x))]
  · have h := eval_loop p.coeff x d
    rw [← List.map_coe_finRange, List.foldl_map] at h
    have h0 : p.coeffs_ 0 = p.coeff 0 := by simp [coeff]
    rw [h0]
    simp only [bind, Except.bind, pure, Except.pure]
    rw [h]
    simp only [Finset.sum_range, coeff_val]
  · intro s i
    have hi : p.coeffs_ i.succ = p.coeff (i.val + 1) := by
      rw [coeff_of_le p (Nat.succ_lt_succ i.isLt)]; rfl
    simp [𝔽₄.add_ok, 𝔽₄.mul_ok, hi]

theorem mul_eq_ok (p q : Pol d) :
    mul p q = if d < p.deg + q.deg then .error .overflow_error
      else .ok ⟨fun i => ∑ j : Fin (i.val + 1),
        p.coeffs_ ⟨j.val, by omega⟩ * q.coeffs_ ⟨i.val - j.val, by omega⟩⟩ := by
  unfold mul
  split
  · rfl
  · rw [foldlM_ok _ (fun (prod : Fin (d + 1) → 𝔽₄) (i : Fin (d + 1)) =>
      Function.update prod i (prod i + ∑ j : Fin (i.val + 1),
        p.coeffs_ ⟨j.val, by omega⟩ * q.coeffs_ ⟨i.val - j.val, by omega⟩))]
    · rw [foldl_accum_mem _ _ (List.nodup_finRange _)]
      simp
    · intro s i
      rw [foldlM_ok _ (fun (prod : Fin (d + 1) → 𝔽₄) (j : Fin (i.val + 1)) =>
        Function.update prod i (prod i +
          p.coeffs_ ⟨j.val, by omega⟩ * q.coeffs_ ⟨i.val - j.val, by omega⟩))]
      · rw [foldl_accum_at, Fin.sum_univ_def]
      · intro s' j
        simp [𝔽₄.add_ok, 𝔽₄.mul_ok]

end Pol

/-! ## The degree and the product -/

namespace Pol

variable {d : Nat}

theorem degLoop_le (p : Pol d) : ∀ (n : Nat) (h : n ≤ d), degLoop p n h ≤ n
  | 0, _ => le_rfl
  | n + 1, h => by
    unfold degLoop
    split
    · exact le_rfl
    · exact Nat.le_succ_of_le (degLoop_le p n (by omega))

theorem degLoop_zero_above (p : Pol d) :
    ∀ (n : Nat) (h : n ≤ d) (m : Nat), degLoop p n h < m → m ≤ n → p.coeff m = 0
  | 0, _, m, h1, h2 => by omega
  | n + 1, h, m, h1, h2 => by
    unfold degLoop at h1
    split at h1
    · omega
    · rename_i hc
      rcases Nat.eq_or_lt_of_le h2 with h3 | h3
      · subst h3
        rw [coeff_of_le p (by omega)]
        by_contra hne
        exact hc ((𝔽₄.ne_iff _ _).mpr hne)
      · exact degLoop_zero_above p n (by omega) m h1 (by omega)

theorem degLoop_lead (p : Pol d) :
    ∀ (n : Nat) (h : n ≤ d), degLoop p n h ≠ 0 → p.coeff (degLoop p n h) ≠ 0
  | 0, _, h1 => by simp [degLoop] at h1
  | n + 1, h, h1 => by
    unfold degLoop at h1 ⊢
    split
    · rename_i hc
      rw [coeff_of_le p (by omega)]
      exact (𝔽₄.ne_iff _ _).mp hc
    · rename_i hc
      rw [if_neg hc] at h1
      exact degLoop_lead p n (by omega) h1

theorem deg_le (p : Pol d) : p.deg ≤ d := degLoop_le p d le_rfl

theorem coeff_zero_above_deg (p : Pol d) {m : Nat} (h : p.deg < m) : p.coeff m = 0 := by
  by_cases hm : m ≤ d
  · exact degLoop_zero_above p d le_rfl m h hm
  · exact coeff_of_gt p (by omega)

theorem coeff_deg_ne_zero (p : Pol d) (h : p.deg ≠ 0) : p.coeff p.deg ≠ 0 :=
  degLoop_lead p d le_rfl h

theorem le_deg_of_coeff_ne_zero (p : Pol d) {m : Nat} (h : p.coeff m ≠ 0) : m ≤ p.deg := by
  by_contra hlt
  exact h (coeff_zero_above_deg p (by omega))

theorem fullConv_lead (p q : Pol d) :
    fullConv p q (p.deg + q.deg) = p.coeff p.deg * q.coeff q.deg := by
  unfold fullConv
  rw [Finset.sum_eq_single p.deg]
  · simp
  · intro j _ hj
    rcases Nat.lt_or_gt_of_ne hj with h | h
    · rw [coeff_zero_above_deg q (by omega), mul_zero]
    · rw [coeff_zero_above_deg p h, zero_mul]
  · intro h
    simp at h
    omega

theorem fullConv_zero_above (p q : Pol d) {n : Nat} (h : p.deg + q.deg < n) :
    fullConv p q n = 0 := by
  unfold fullConv
  apply Finset.sum_eq_zero
  intro j _
  by_cases hj : p.deg < j
  · rw [coeff_zero_above_deg p hj, zero_mul]
  · rw [coeff_zero_above_deg q (by omega), mul_zero]

theorem coeffs_eq_fullConv (p q : Pol d) (i : Fin (d + 1)) :
    (∑ j : Fin (i.val + 1),
        p.coeffs_ ⟨j.val, by omega⟩ * q.coeffs_ ⟨i.val - j.val, by omega⟩) =
      fullConv p q i.val := by
  unfold fullConv
  rw [Finset.sum_range]
  apply Finset.sum_congr rfl
  intro j _
  rw [coeff_of_le p (by omega), coeff_of_le q (by omega)]

end Pol

/-! ## Uniqueness of the interpolant -/

theorem Pol.coeffs_zero_of_roots {d : Nat} (c xs : Fin (d + 1) → 𝔽₄)
    (hxs : Function.Injective xs) (h : ∀ k, ∑ i, c i * xs k ^ i.val = 0) :
    ∀ i, c i = 0 := by
  have hP : (∑ i : Fin (d + 1), Polynomial.C (c i) * Polynomial.X ^ i.val) = 0 := by
    apply Polynomial.eq_zero_of_natDegree_lt_card_of_eval_eq_zero _ hxs
    · intro k
      simpa [Polynomial.eval_finset_sum] using h k
    · rw [Fintype.card_fin]
      apply Nat.lt_succ_of_le
      apply Polynomial.natDegree_sum_le_of_forall_le
      intro i _
      exact (Polynomial.natDegree_C_mul_X_pow_le _ _).trans (Nat.le_of_lt_succ i.isLt)
  intro i
  have hc := congrArg (fun Q => Polynomial.coeff Q i.val) hP
  simp only [Polynomial.finset_sum_coeff, Polynomial.coeff_C_mul_X_pow,
    Polynomial.coeff_zero] at hc
  rw [Finset.sum_eq_single i] at hc
  · simpa using hc
  · intro j _ hj
    rw [if_neg]
    intro hij
    exact hj (Fin.ext hij.symm)
  · intro hi
    exact absurd (Finset.mem_univ i) hi

/-! ## The successor of a polynomial -/

namespace Pol

variable {d : Nat}

theorem rank_lt (c : Fin (d + 1) → 𝔽₄) (l : List (Fin (d + 1))) :
    rank c l < 4 ^ l.length := by
  induction l with
  | nil => simp [rank]
  | cons i rest ih =>
    have hi := (c i).value_.isLt
    simp only [rank, List.length_cons, pow_succ]
    omega

theorem rank_congr (c c' : Fin (d + 1) → 𝔽₄) (l : List (Fin (d + 1)))
    (h : ∀ k ∈ l, c k = c' k) : rank c l = rank c' l := by
  induction l with
  | nil => rfl
  | cons i rest ih =>
    simp only [rank]
    rw [h i (List.mem_cons_self _ _), ih (fun k hk => h k (List.mem_cons_of_mem _ hk))]

theorem rank_inj (c c' : Fin (d + 1) → 𝔽₄) (l : List (Fin (d + 1)))
    (h : rank c l = rank c' l) : ∀ k ∈ l, c k = c' k := by
  induction l with
  | nil => simp
  | cons i rest ih =>
    have hi := (c i).value_.isLt
    have hi' := (c' i).value_.isLt
    simp only [rank] at h
    have h1 : (c i).value_.val = (c' i).value_.val := by omega
    have h2 : rank c rest = rank c' rest := by omega
    intro k hk
    rcases List.mem_cons.mp hk with hk | hk
    · subst hk
      cases hc : c k; cases hc' : c' k
      rw [hc, hc'] at h1
      simp only at h1
      rw [Fin.ext h1]
    · exact ih h2 k hk

theorem incr_wraps (a : 𝔽₄) : 𝔽₄.eq a.incr 0 = true ↔ a.value_.val = 3 := by
  revert a; decide

theorem incr_val_of_wrap (a : 𝔽₄) (h : a.value_.val = 3) : a.incr.value_.val = 0 := by
  revert a; decide

theorem incr_val (a : 𝔽₄) (h : a.value_.val ≠ 3) : a.incr.value_.val = a.value_.val + 1 := by
  revert a; decide

theorem incrLoop_spec (l : List (Fin (d + 1))) (hl : l.Nodup) (c : Fin (d + 1) → 𝔽₄) :
    rank (incrLoop c l) l = (rank c l + 1) % 4 ^ l.length ∧
      ∀ k, k ∉ l → incrLoop c l k = c k := by
  induction l generalizing c with
  | nil => simp [rank, incrLoop]
  | cons i rest ih =>
    obtain ⟨hi, hrest⟩ := List.nodup_cons.mp hl
    have hlt := rank_lt c rest
    have hci := (c i).value_.isLt
    simp only [incrLoop, rank, List.length_cons, pow_succ]
    by_cases hw : 𝔽₄.eq (c i).incr 0 = true
    · rw [if_pos hw]
      have h3 := (incr_wraps _).mp hw
      obtain ⟨ih1, ih2⟩ := ih hrest (Function.update c i (c i).incr)
      have hr : rank (Function.update c i (c i).incr) rest = rank c rest :=
        rank_congr _ _ _ (fun k hk => by
          rw [Function.update_noteq]
          rintro rfl
          exact hi hk)
      constructor
      · rw [ih2 i hi, Function.update_same, incr_val_of_wrap _ h3, ih1, hr, h3]
        have hpos : 0 < 4 ^ rest.length := Nat.pow_pos (by norm_num)
        rcases Nat.lt_or_ge (rank c rest + 1) (4 ^ rest.length) with h | h
        · rw [Nat.mod_eq_of_lt h, Nat.mod_eq_of_lt (by omega)]
          omega
        · have he : rank c rest + 1 = 4 ^ rest.length := by omega
          rw [he, Nat.mod_self]
          have : 3 + 4 * rank c rest + 1 = 4 ^ rest.length * 4 := by omega
          rw [this, Nat.mod_self]
      · intro k hk
        rw [List.mem_cons, not_or] at hk
        rw [ih2 k hk.2, Function.update_noteq hk.1]
    · rw [if_neg hw]
      have h3 : (c i).value_.val ≠ 3 := fun h => hw ((incr_wraps _).mpr h)
      have hr : rank (Function.update c i (c i).incr) rest = rank c rest :=
        rank_congr _ _ _ (fun k hk => by
          rw [Function.update_noteq]
          rintro rfl
          exact hi hk)
      constructor
      · rw [Function.update_same, hr, incr_val _ h3, Nat.mod_eq_of_lt (by omega)]
        omega
      · intro k hk
        rw [List.mem_cons, not_or] at hk
        rw [Function.update_noteq hk.1]

theorem rank_incr (p : Pol d) :
    rank (incr p).coeffs_ (List.finRange (d + 1)) =
      (rank p.coeffs_ (List.finRange (d + 1)) + 1) % 4 ^ (d + 1) := by
  have h := (incrLoop_spec (List.finRange (d + 1)) (List.nodup_finRange _) p.coeffs_).1
  rw [List.length_finRange] at h
  exact h

theorem rank_zero (l : List (Fin (d + 1))) : rank (0 : Pol d).coeffs_ l = 0 := by
  induction l with
  | nil => rfl
  | cons i rest ih =>
    simp only [rank, ih]
    rfl

theorem rank_iterate (k : Nat) :
    rank (incr^[k] (0 : Pol d)).coeffs_ (List.finRange (d + 1)) = k % 4 ^ (d + 1) := by
  induction k with
  | zero => simp [rank_zero]
  | succ k ih =>
    rw [Function.iterate_succ_apply', rank_incr, ih]
    simp [Nat.add_mod]

theorem eq_of_rank_eq (p q : Pol d)
    (h : rank p.coeffs_ (List.finRange (d + 1)) = rank q.coeffs_ (List.finRange (d + 1))) :
    p = q :=
  ext_iff.mpr (fun i => rank_inj _ _ _ h i (List.mem_finRange i))

end Pol

/-! ## The loops of `lagrange` -/

theorem foldlM_cons_eq {σ ι : Type} (f : σ → ι → Except Error σ) (a : ι) (l : List ι)
    (s : σ) : (a :: l).foldlM f s = f s a >>= fun s' => l.foldlM f s' := rfl

theorem foldlM_not_ok {σ ι : Type} (f : σ → ι → Except Error σ) (a : ι)
    (h : ∀ s r, f s a ≠ .ok r) (l : List ι) (ha : a ∈ l) :
    ∀ s r, l.foldlM f s ≠ .ok r := by
  induction l with
  | nil => cases ha
  | cons b rest ih =>
    intro s r
    rw [foldlM_cons_eq]
    cases hb : f s b with
    | error e => simp
    | ok s' =>
      rw [ok_bind]
      rcases List.mem_cons.mp ha with hab | hab
      · subst hab
        exact absurd hb (h s s')
      · exact ih hab s' r

theorem foldlM_ok_or {σ ι : Type} (f : σ → ι → Except Error σ) (e : Error)
    (h : ∀ s a, (∃ r, f s a = .ok r) ∨ f s a = .error e) (l : List ι) :
    ∀ s, (∃ r, l.foldlM f s = .ok r) ∨ l.foldlM f s = .error e := by
  induction l with
  | nil => intro s; exact Or.inl ⟨s, rfl⟩
  | cons b rest ih =>
    intro s
    rw [foldlM_cons_eq]
    rcases h s b with ⟨r, hr⟩ | hr
    · rw [hr, ok_bind]; exact ih r
    · rw [hr, error_bind]; exact Or.inr rfl

namespace Pol

variable {d : Nat}

theorem deg_le_of_coeff_zero (p : Pol d) (n : Nat) (h : ∀ m, n < m → p.coeff m = 0) :
    p.deg ≤ n := by
  by_contra hlt
  exact p.coeff_deg_ne_zero (by omega) (h _ (by omega))

theorem deg_ofList_le (cs : List 𝔽₄) : (ofList cs : Pol d).deg ≤ cs.length - 1 := by
  apply deg_le_of_coeff_zero
  intro m hm
  unfold coeff
  split
  · simp only [ofList]
    rw [List.getD_eq_default _ _ (by omega)]
  · rfl

theorem mul_deg_le (p q r : Pol d) (h : mul p q = .ok r) : r.deg ≤ p.deg + q.deg := by
  rw [mul_eq_ok] at h
  split at h
  · cases h
  · cases h
    apply deg_le_of_coeff_zero
    intro m hm
    unfold coeff
    split
    · rename_i hmd
      exact (coeffs_eq_fullConv p q ⟨m, hmd⟩).trans (fullConv_zero_above p q hm)
    · rfl

end Pol

theorem lagrange.factor_of_eq {d : Nat} (xs ys : Fin (d + 1) → 𝔽₄) (i j : Fin (d + 1))
    (h : xs i = xs j) : lagrange.factor xs ys i j = .error .invalid_argument := by
  unfold lagrange.factor
  simp only [𝔽₄.mul_ok, 𝔽₄.sub_ok, ok_bind, h, sub_self, 𝔽₄.div_zero_err, error_bind]

theorem lagrange.factor_of_ne {d : Nat} (xs ys : Fin (d + 1) → 𝔽₄) (i j : Fin (d + 1))
    (h : xs i ≠ xs j) :
    lagrange.factor xs ys i j =
      .ok (Pol.ofList [ys i * xs j / (xs j - xs i), ys i / (xs i - xs j)]) := by
  unfold lagrange.factor
  have h1 : xs j - xs i ≠ 0 := sub_ne_zero.mpr (Ne.symm h)
  have h2 : xs i - xs j ≠ 0 := sub_ne_zero.mpr h
  simp only [𝔽₄.mul_ok, 𝔽₄.sub_ok, ok_bind, 𝔽₄.div_ok _ _ h1, 𝔽₄.div_ok _ _ h2]
  rfl

theorem lagrange.termLoop_cons {d : Nat} (xs ys : Fin (d + 1) → 𝔽₄) (i j : Fin (d + 1))
    (rest : List (Fin (d + 1))) (t : Pol d) :
    lagrange.termLoop xs ys i (j :: rest) t =
      (if i = j then pure t else lagrange.factor xs ys i j >>= fun f => Pol.mul t f) >>=
        fun t' => lagrange.termLoop xs ys i rest t' := rfl

theorem lagrange.termLoop_ok_or_invalid {d : Nat} (xs ys : Fin (d + 1) → 𝔽₄)
    (i : Fin (d + 1)) (l : List (Fin (d + 1))) :
    ∀ t : Pol d, t.deg + (l.filter (fun j => decide (j ≠ i))).length ≤ d →
      (∃ t', lagrange.termLoop xs ys i l t = .ok t') ∨
        lagrange.termLoop xs ys i l t = .error .invalid_argument := by
  induction l with
  | nil => intro t _; exact Or.inl ⟨t, rfl⟩
  | cons j rest ih =>
    intro t ht
    rw [lagrange.termLoop_cons]
    by_cases hij : i = j
    · rw [if_pos hij]
      have hf : (List.filter (fun j => decide (j ≠ i)) (j :: rest)) =
          List.filter (fun j => decide (j ≠ i)) rest := by
        rw [List.filter_cons_of_neg]; simp [hij]
      rw [hf] at ht
      exact ih t ht
    · rw [if_neg hij]
      have hf : (List.filter (fun j => decide (j ≠ i)) (j :: rest)) =
          j :: List.filter (fun j => decide (j ≠ i)) rest := by
        rw [List.filter_cons_of_pos]; simpa using fun h => hij h.symm
      rw [hf, List.length_cons] at ht
      by_cases hx : xs i = xs j
      · rw [lagrange.factor_of_eq xs ys i j hx]
        exact Or.inr rfl
      · rw [lagrange.factor_of_ne xs ys i j hx, ok_bind]
        have hfac : (Pol.ofList [ys i * xs j / (xs j - xs i), ys i / (xs i - xs j)] :
            Pol d).deg ≤ 1 := Pol.deg_ofList_le _
        cases hm : Pol.mul t (Pol.ofList
            [ys i * xs j / (xs j - xs i), ys i / (xs i - xs j)]) with
        | error e =>
          rw [Pol.mul_eq_ok, if_neg (by omega)] at hm
          cases hm
        | ok t' =>
          rw [ok_bind]
          have := Pol.mul_deg_le _ _ _ hm
          exact ih t' (by omega)

theorem lagrange.termLoop_not_ok {d : Nat} (xs ys : Fin (d + 1) → 𝔽₄) (i j : Fin (d + 1))
    (hij : i ≠ j) (hx : xs i = xs j) (l : List (Fin (d + 1))) (hj : j ∈ l) (t r : Pol d) :
    lagrange.termLoop xs ys i l t ≠ .ok r := by
  unfold lagrange.termLoop
  apply foldlM_not_ok _ j _ _ hj
  intro s r'
  rw [if_neg hij, lagrange.factor_of_eq xs ys i j hx]
  simp

theorem lagrange_ok_or_invalid {d : Nat} (xs ys : Fin (d + 1) → 𝔽₄) :
    (∃ r, lagrange xs ys = .ok r) ∨ lagrange xs ys = .error .invalid_argument := by
  unfold lagrange
  apply foldlM_ok_or
  intro s i
  have h1 : (Pol.ofList [1] : Pol d).deg = 0 :=
    Nat.le_zero.mp (Pol.deg_ofList_le _)
  have h2 : ((List.finRange (d + 1)).filter (fun j => decide (j ≠ i))).length ≤ d := by
    have hlt : ((List.finRange (d + 1)).filter (fun j => decide (j ≠ i))).length <
        (List.finRange (d + 1)).length :=
      List.length_filter_lt_length_iff_exists.mpr ⟨i, List.mem_finRange i, by simp⟩
    rw [List.length_finRange] at hlt
    omega
  rcases lagrange.termLoop_ok_or_invalid xs ys i (List.finRange (d + 1)) (Pol.ofList [1])
    (by omega) with ⟨t', ht'⟩ | herr
  · rw [ht', ok_bind, Pol.add_eq_ok]
    exact Or.inl ⟨_, rfl⟩
  · rw [herr, error_bind]
    exact Or.inr rfl

theorem Pol.zero_coeffs {d : Nat} (i : Fin (d + 1)) : (0 : Pol d).coeffs_ i = 0 := rfl


/-! ## Evaluation of sums and products -/

theorem Pol.toPoly_coeff {d : Nat} (p : Pol d) (n : Nat) :
    (∑ i : Fin (d + 1), Polynomial.C (p.coeffs_ i) * Polynomial.X ^ i.val).coeff n =
      p.coeff n := by
  simp only [Polynomial.finset_sum_coeff, Polynomial.coeff_C_mul_X_pow]
  by_cases hn : n < d + 1
  · rw [Finset.sum_eq_single (⟨n, hn⟩ : Fin (d + 1)), Pol.coeff_of_le p hn]
    · simp
    · intro j _ hj
      rw [if_neg]
      intro h
      exact hj (Fin.ext h.symm)
    · intro h
      exact absurd (Finset.mem_univ _) h
  · rw [Pol.coeff_of_gt p (by omega)]
    apply Finset.sum_eq_zero
    intro j _
    rw [if_neg]
    intro h
    exact hn (h ▸ j.isLt)

theorem Pol.evalSum_eq_polyEval {d : Nat} (p : Pol d) (x : 𝔽₄) :
    (∑ i : Fin (d + 1), p.coeffs_ i * x ^ i.val) =
      Polynomial.eval x
        (∑ i : Fin (d + 1), Polynomial.C (p.coeffs_ i) * Polynomial.X ^ i.val) := by
  simp [Polynomial.eval_finset_sum]

theorem Pol.coeff_mul_of_ok {d : Nat} (p q r : Pol d) (h : Pol.mul p q = .ok r) (n : Nat) :
    r.coeff n = Pol.fullConv p q n := by
  rw [Pol.mul_eq_ok] at h
  split at h
  · cases h
  · rename_i hd
    cases h
    by_cases hn : n < d + 1
    · rw [Pol.coeff_of_le _ hn]
      exact Pol.coeffs_eq_fullConv p q ⟨n, hn⟩
    · rw [Pol.coeff_of_gt _ (by omega)]
      exact (Pol.fullConv_zero_above p q (by omega)).symm

theorem Pol.toPoly_mul {d : Nat} (p q r : Pol d) (h : Pol.mul p q = .ok r) :
    (∑ i : Fin (d + 1), Polynomial.C (r.coeffs_ i) * Polynomial.X ^ i.val) =
      (∑ i : Fin (d + 1), Polynomial.C (p.coeffs_ i) * Polynomial.X ^ i.val) *
        (∑ i : Fin (d + 1), Polynomial.C (q.coeffs_ i) * Polynomial.X ^ i.val) := by
  ext n
  rw [Pol.toPoly_coeff, Pol.coeff_mul_of_ok p q r h, Polynomial.coeff_mul]
  simp only [Pol.toPoly_coeff]
  exact (Finset.Nat.sum_antidiagonal_eq_sum_range_succ
    (fun a b => p.coeff a * q.coeff b) n).symm

theorem Pol.evalSum_mul {d : Nat} (p q r : Pol d) (h : Pol.mul p q = .ok r) (x : 𝔽₄) :
    (∑ i : Fin (d + 1), r.coeffs_ i * x ^ i.val) =
      (∑ i : Fin (d + 1), p.coeffs_ i * x ^ i.val) *
        (∑ i : Fin (d + 1), q.coeffs_ i * x ^ i.val) := by
  rw [Pol.evalSum_eq_polyEval, Pol.evalSum_eq_polyEval, Pol.evalSum_eq_polyEval,
    Pol.toPoly_mul p q r h, Polynomial.eval_mul]

theorem Pol.evalSum_add {d : Nat} (p q : Pol d) (x : 𝔽₄) :
    (∑ i : Fin (d + 1), (p.coeffs_ i + q.coeffs_ i) * x ^ i.val) =
      (∑ i : Fin (d + 1), p.coeffs_ i * x ^ i.val) +
        (∑ i : Fin (d + 1), q.coeffs_ i * x ^ i.val) := by
  simp only [add_mul, Finset.sum_add_distrib]

/-! ## The value of the interpolant -/

theorem 𝔽₄.factor_at_self : ∀ a b y : 𝔽₄, a ≠ b →
    y * b / (b - a) + y / (a - b) * a = y := by decide

theorem 𝔽₄.factor_at_other : ∀ a b y : 𝔽₄, a ≠ b →
    y * b / (b - a) + y / (a - b) * b = 0 := by decide

theorem Pol.evalSum_ofList {d : Nat} (cs : List 𝔽₄) (x : 𝔽₄) :
    (∑ i : Fin (d + 1), (Pol.ofList cs : Pol d).coeffs_ i * x ^ i.val) =
      ∑ n in Finset.range (d + 1), cs.getD n 0 * x ^ n := by
  rw [Finset.sum_range]
  rfl

theorem Pol.evalSum_one {d : Nat} (x : 𝔽₄) :
    (∑ i : Fin (d + 1), (Pol.ofList [1] : Pol d).coeffs_ i * x ^ i.val) = 1 := by
  rw [Pol.evalSum_ofList, Finset.sum_eq_single 0]
  · simp
  · intro n _ hn
    rw [List.getD_eq_default _ _ (by simp; omega), zero_mul]
  · intro h
    simp at h

theorem Pol.evalSum_linear {d : Nat} (hd : 1 ≤ d) (c₀ c₁ x : 𝔽₄) :
    (∑ i : Fin (d + 1), (Pol.ofList [c₀, c₁] : Pol d).coeffs_ i * x ^ i.val) =
      c₀ + c₁ * x := by
  rw [Pol.evalSum_ofList]
  have hsub : Finset.range 2 ⊆ Finset.range (d + 1) :=
    Finset.range_subset.mpr (by omega)
  rw [← Finset.sum_subset hsub]
  · simp [Finset.sum_range_succ]
  · intro n _ hn
    rw [List.getD_eq_default _ _ (by simp at hn ⊢; omega), zero_mul]

theorem Pol.evalSum_zero {d : Nat} (x : 𝔽₄) :
    (∑ i : Fin (d + 1), (0 : Pol d).coeffs_ i * x ^ i.val) = 0 := by
  simp [Pol.zero_coeffs]

theorem length_filter_ne_finRange {d : Nat} (i : Fin (d + 1)) :
    ((List.finRange (d + 1)).filter (fun j => decide (j ≠ i))).length = d := by
  have hfun : (fun j : Fin (d + 1) => decide (j ≠ i)) = (fun j => j != i) := by
    funext j; by_cases h : j = i <;> simp [h]
  rw [hfun, ← (List.nodup_finRange (d + 1)).erase_eq_filter i,
    List.length_erase_of_mem (List.mem_finRange i), List.length_finRange]
  rfl

theorem lagrange.termLoop_eval {d : Nat} (xs ys : Fin (d + 1) → 𝔽₄)
    (hxs : ∀ i j, i ≠ j → xs i ≠ xs j) (i : Fin (d + 1)) (l : List (Fin (d + 1))) :
    ∀ t : Pol d, t.deg + (l.filter (fun j => decide (j ≠ i))).length ≤ d →
      ∃ t', lagrange.termLoop xs ys i l t = .ok t' ∧
        t'.deg ≤ t.deg + (l.filter (fun j => decide (j ≠ i))).length ∧
        ∀ x, (∑ k : Fin (d + 1), t'.coeffs_ k * x ^ k.val) =
          (∑ k : Fin (d + 1), t.coeffs_ k * x ^ k.val) *
            ((l.filter (fun j => decide (j ≠ i))).map (fun j =>
              ys i * xs j / (xs j - xs i) + ys i / (xs i - xs j) * x)).prod := by
  induction l with
  | nil => intro t _; exact ⟨t, rfl, by simp, by simp⟩
  | cons j rest ih =>
    intro t ht
    rw [lagrange.termLoop_cons]
    by_cases hij : i = j
    · rw [if_pos hij]
      have hf : (List.filter (fun j => decide (j ≠ i)) (j :: rest)) =
          List.filter (fun j => decide (j ≠ i)) rest := by
        rw [List.filter_cons_of_neg]; simp [hij]
      rw [hf] at ht ⊢
      exact ih t ht
    · rw [if_neg hij]
      have hf : (List.filter (fun j => decide (j ≠ i)) (j :: rest)) =
          j :: List.filter (fun j => decide (j ≠ i)) rest := by
        rw [List.filter_cons_of_pos]; simpa using fun h => hij h.symm
      rw [hf, List.length_cons] at ht
      rw [hf, List.length_cons, lagrange.factor_of_ne xs ys i j (hxs i j hij), ok_bind]
      have hd : 1 ≤ d := by
        rcases Nat.eq_zero_or_pos d with h0 | h0
        · subst h0
          exact absurd (Fin.ext (by omega)) hij
        · exact h0
      have hfac : (Pol.ofList [ys i * xs j / (xs j - xs i), ys i / (xs i - xs j)] :
          Pol d).deg ≤ 1 := Pol.deg_ofList_le _
      cases hm : Pol.mul t (Pol.ofList
          [ys i * xs j / (xs j - xs i), ys i / (xs i - xs j)]) with
      | error e =>
        rw [Pol.mul_eq_ok, if_neg (by omega)] at hm
        cases hm
      | ok t₁ =>
        rw [ok_bind]
        have hdeg := Pol.mul_deg_le _ _ _ hm
        obtain ⟨t', h1, h2, h3⟩ := ih t₁ (by omega)
        refine ⟨t', h1, by omega, ?_⟩
        intro x
        rw [h3 x, Pol.evalSum_mul _ _ _ hm x, Pol.evalSum_linear hd, List.map_cons,
          List.prod_cons, mul_assoc]

theorem lagrange.termLoop_at_samples {d : Nat} (xs ys : Fin (d + 1) → 𝔽₄)
    (hxs : ∀ i j, i ≠ j → xs i ≠ xs j) (i : Fin (d + 1)) :
    ∃ t, lagrange.termLoop xs ys i (List.finRange (d + 1)) (Pol.ofList [1]) = .ok t ∧
      ∀ k, (∑ n : Fin (d + 1), t.coeffs_ n * xs k ^ n.val) =
        if k = i then ys i ^ d else 0 := by
  have h0 : (Pol.ofList [1] : Pol d).deg = 0 := Nat.le_zero.mp (Pol.deg_ofList_le _)
  obtain ⟨t, h1, _, h3⟩ := lagrange.termLoop_eval xs ys hxs i (List.finRange (d + 1))
    (Pol.ofList [1]) (by rw [h0, length_filter_ne_finRange]; omega)
  refine ⟨t, h1, fun k => ?_⟩
  rw [h3, Pol.evalSum_one, one_mul]
  by_cases hk : k = i
  · rw [if_pos hk, hk, List.prod_eq_pow_card _ (ys i), List.length_map,
      length_filter_ne_finRange]
    intro v hv
    obtain ⟨j, hj, rfl⟩ := List.mem_map.mp hv
    have hji : j ≠ i := by simpa using (List.mem_filter.mp hj).2
    exact 𝔽₄.factor_at_self _ _ _ (hxs i j (Ne.symm hji))
  · rw [if_neg hk]
    apply List.prod_eq_zero
    apply List.mem_map.mpr
    refine ⟨k, List.mem_filter.mpr ⟨List.mem_finRange k, by simpa using hk⟩, ?_⟩
    exact 𝔽₄.factor_at_other _ _ _ (hxs i k (Ne.symm hk))

theorem lagrange_outer_loop {d : Nat} (xs ys : Fin (d + 1) → 𝔽₄)
    (hxs : ∀ i j, i ≠ j → xs i ≠ xs j) (l : List (Fin (d + 1))) :
    ∀ acc : Pol d, ∃ r,
      l.foldlM (fun (result : Pol d) (i : Fin (d + 1)) => do
        let term_i ← lagrange.termLoop xs ys i (List.finRange (d + 1)) (Pol.ofList [1])
        Pol.add result term_i) acc = .ok r ∧
      ∀ k, (∑ n : Fin (d + 1), r.coeffs_ n * xs k ^ n.val) =
        (∑ n : Fin (d + 1), acc.coeffs_ n * xs k ^ n.val) +
          (l.map (fun i => if k = i then ys i ^ d else 0)).sum := by
  induction l with
  | nil => intro acc; exact ⟨acc, rfl, by simp⟩
  | cons i rest ih =>
    intro acc
    obtain ⟨t, ht, hval⟩ := lagrange.termLoop_at_samples xs ys hxs i
    rw [foldlM_cons_eq, ht, ok_bind, Pol.add_eq_ok, ok_bind]
    obtain ⟨r, hr, hsum⟩ := ih ⟨fun n => acc.coeffs_ n + t.coeffs_ n⟩
    refine ⟨r, hr, fun k => ?_⟩
    rw [hsum k, Pol.evalSum_add, hval k, List.map_cons, List.sum_cons, add_assoc]

theorem lagrange_at_samples {d : Nat} (xs ys : Fin (d + 1) → 𝔽₄)
    (hxs : ∀ i j, i ≠ j → xs i ≠ xs j) :
    ∃ r, lagrange xs ys = .ok r ∧
      ∀ k, (∑ n : Fin (d + 1), r.coeffs_ n * xs k ^ n.val) = ys k ^ d := by
  obtain ⟨r, hr, hsum⟩ := lagrange_outer_loop xs ys hxs (List.finRange (d + 1)) 0
  refine ⟨r, hr, fun k => ?_⟩
  rw [hsum k, Pol.evalSum_zero, zero_add, ← Fin.sum_univ_def, Finset.sum_eq_single k]
  · rw [if_pos rfl]
  · intro i _ hi
    rw [if_neg (Ne.symm hi)]
  · intro h
    exact absurd (Finset.mem_univ k) h

/-! ## Text rendering -/

theorem 𝔽₄.print_text (os : String) (c : 𝔽₄) : 𝔽₄.print os c = .ok (os ++ c.text) := by
  rcases c with ⟨⟨v, hv⟩⟩
  interval_cases v <;> rfl

theorem intercalate_go_append (s acc b : String) (l : List String) :
    String.intercalate.go (acc ++ b) s l = acc ++ String.intercalate.go b s l := by
  induction l generalizing b with
  | nil => rfl
  | cons a as ih =>
    simp only [String.intercalate.go]
    rw [String.append_assoc, String.append_assoc, ih, String.append_assoc]

theorem intercalate_cons_cons (s a b : String) (l : List String) :
    String.intercalate s (a :: b :: l) = a ++ s ++ String.intercalate s (b :: l) := by
  show String.intercalate.go (a ++ s ++ b) s l = a ++ s ++ String.intercalate.go b s l
  exact intercalate_go_append s (a ++ s) b l

theorem reverse_range_succ (m : Nat) :
    (List.range (m + 1)).reverse = m :: (List.range m).reverse := by
  rw [List.range_succ, List.reverse_append, List.reverse_singleton, List.singleton_append]

theorem map_sub_finRange (d : Nat) :
    (List.finRange (d + 1)).map (fun i => d - i.val) = (List.range (d + 1)).reverse := by
  have h : (fun i : Fin (d + 1) => d - i.val) = (fun n => d - n) ∘ Fin.val := rfl
  have hr : (List.range (d + 1)).reverse = (List.range (d + 1)).map (fun n => d - n) := by
    conv_lhs => rw [List.range_eq_range', List.reverse_range']
    apply List.map_congr_left
    intro n _
    simp
  rw [h, ← List.map_map, List.map_coe_finRange, hr]

/-- The loop of `Pol.print` over the powers `m, m-1, …, 0` appends the terms for
these powers joined by `" + "`. -/
theorem Pol.print_loop {d : Nat} (p : Pol d) (m : Nat) (os : String) :
    (List.range (m + 1)).reverse.foldl
      (fun (os : String) (n : Nat) =>
        match n with
        | 0 => os ++ (p.coeff n).text
        | 1 => os ++ (p.coeff n).text ++ ".x + "
        | _ + 2 => os ++ (p.coeff n).text ++ ".x^" ++ toString n ++ " + ") os =
      os ++ String.intercalate " + " ((List.range (m + 1)).reverse.map p.term) := by
  induction m generalizing os with
  | zero => rfl
  | succ m ih =>
    rw [reverse_range_succ (m + 1), List.foldl_cons, ih, List.map_cons,
      reverse_range_succ m, List.map_cons, intercalate_cons_cons]
    cases m with
    | zero =>
      have h : (".x + " : String) = ".x" ++ " + " := by decide
      simp only [Pol.term, h, String.append_assoc]
    | succ k => simp only [Pol.term, String.append_assoc]

theorem Pol.print_eq_ok {d : Nat} (p : Pol d) (os : String) :
    Pol.print os p =
      .ok (os ++ String.intercalate " + " ((List.range (d + 1)).reverse.map p.term)) := by
  unfold Pol.print
  rw [foldlM_ok _ (fun (os : String) (i : Fin (d + 1)) =>
    match d - i.val with
    | 0 => os ++ (p.coeff (d - i.val)).text
    | 1 => os ++ (p.coeff (d - i.val)).text ++ ".x + "
    | _ + 2 => os ++ (p.coeff (d - i.val)).text ++ ".x^" ++ toString (d - i.val) ++ " + ")]
  · rw [← Pol.print_loop p d os, ← map_sub_finRange, List.foldl_map]
  · intro s i
    have hc : p.coeffs_ ⟨d - i.val, by omega⟩ = p.coeff (d - i.val) :=
      (Pol.coeff_of_le p (by omega)).symm
    split <;> simp only [𝔽₄.print_text, ok_bind, hc] <;> rfl

/-- With the loops read as folds: when two of the x-coordinates coincide the
result is the `std::invalid_argument` of the field's `operator/`. -/
theorem lagrange_invalid_of_repeat {d : Nat} (xs ys : Fin (d + 1) → 𝔽₄) (i j : Fin (d + 1))
    (hij : i ≠ j) (hx : xs i = xs j) :
    lagrange xs ys = .error .invalid_argument := by
  rcases lagrange_ok_or_invalid xs ys with ⟨r, hr⟩ | herr
  · exfalso
    revert hr
    unfold lagrange
    apply foldlM_not_ok _ i _ _ (List.mem_finRange i)
    intro s r'
    cases ht : lagrange.termLoop xs ys i (List.finRange (d + 1)) (Pol.ofList [1]) with
    | error e => simp
    | ok t =>
      exact (lagrange.termLoop_not_ok xs ys i j hij hx _ (List.mem_finRange j) _ _ ht).elim
  · exact herr

/-! ## The loops with their 8-bit counter -/

theorem forDeg_succ {σ : Type} (d : Nat)
    (body : (i : Nat) → i ≤ d → σ → Option (Except Error σ)) (fuel i : Nat) (s : σ)
    (h : i ≤ d) :
    forDeg d body (fuel + 1) i s =
      match body i h s with
      | some (.ok s') => forDeg d body fuel ((i + 1) % 256) s'
      | r => r := by
  rw [forDeg, dif_pos h]

theorem forDeg_exit {σ : Type} (d : Nat)
    (body : (i : Nat) → i ≤ d → σ → Option (Except Error σ)) (fuel i : Nat) (s : σ)
    (h : ¬ i ≤ d) : forDeg d body (fuel + 1) i s = some (.ok s) := by
  rw [forDeg, dif_neg h]

/-- For `d ≤ 254` the counter never wraps: the loop entered at `lo` runs the
body over the indices `lo, …, d` in ascending order and ends. -/
theorem forDeg_eq_fold {σ : Type} (d : Nat) (hd : d ≤ 254)
    (body : (i : Nat) → i ≤ d → σ → Option (Except Error σ))
    (bodyF : σ → Fin (d + 1) → Except Error σ)
    (hb : ∀ i h s, body i h s = some (bodyF s ⟨i, Nat.lt_succ_of_le h⟩)) :
    ∀ (n lo : Nat), lo + n = d + 1 → ∀ (fuel : Nat), n < fuel → ∀ s,
      forDeg d body fuel lo s = some (((List.finRange (d + 1)).drop lo).foldlM bodyF s) := by
  intro n
  induction n with
  | zero =>
    intro lo hlo fuel hfuel s
    obtain ⟨f, rfl⟩ : ∃ f, fuel = f + 1 := ⟨fuel - 1, by omega⟩
    rw [forDeg_exit _ _ _ _ _ (by omega), List.drop_of_length_le (by simp; omega)]
    rfl
  | succ n ih =>
    intro lo hlo fuel hfuel s
    obtain ⟨f, rfl⟩ : ∃ f, fuel = f + 1 := ⟨fuel - 1, by omega⟩
    have hlod : lo ≤ d := by omega
    have hlen : lo < (List.finRange (d + 1)).length := by simp; omega
    rw [forDeg_succ _ _ _ _ _ hlod, hb, List.drop_eq_getElem_cons hlen,
      List.getElem_finRange, foldlM_cons_eq]
    have hmod : (lo + 1) % 256 = lo + 1 := Nat.mod_eq_of_lt (by omega)
    cases hr : bodyF s ⟨lo, Nat.lt_succ_of_le hlod⟩ with
    | error e =>
      have : (Fin.cast (List.length_finRange (d + 1)) ⟨lo, hlen⟩ : Fin (d + 1)) =
          ⟨lo, Nat.lt_succ_of_le hlod⟩ := rfl
      simp only [this, hr, error_bind]
    | ok s' =>
      have : (Fin.cast (List.length_finRange (d + 1)) ⟨lo, hlen⟩ : Fin (d + 1)) =
          ⟨lo, Nat.lt_succ_of_le hlod⟩ := rfl
      simp only [this, hr, ok_bind, hmod]
      exact ih (lo + 1) (by omega) f (by omega) s'

/-- A loop whose body never throws does not throw. -/
theorem forDeg_no_error {σ : Type} (d : Nat)
    (body : (i : Nat) → i ≤ d → σ → Option (Except Error σ))
    (hb : ∀ i h s e, body i h s ≠ some (.error e)) :
    ∀ (fuel i : Nat) (s : σ) (e : Error), forDeg d body fuel i s ≠ some (.error e) := by
  intro fuel
  induction fuel with
  | zero => intro i s e; simp [forDeg]
  | succ f ih =>
    intro i s e
    by_cases h : i ≤ d
    · rw [forDeg_succ _ _ _ _ _ h]
      cases hr : body i h s with
      | none => simp
      | some r =>
        cases r with
        | error e' => exact absurd hr (hb i h s e')
        | ok s' => exact ih _ s' e
    · rw [forDeg_exit _ _ _ _ _ h]; simp

/-- For `d = 255` the test `i <= d` holds for every value of the 8-bit counter:
a loop whose body never throws does not end. -/
theorem forDeg_diverges {σ : Type} (d : Nat) (hd : 255 ≤ d)
    (body : (i : Nat) → i ≤ d → σ → Option (Except Error σ))
    (hb : ∀ i h s e, body i h s ≠ some (.error e)) :
    ∀ (fuel i : Nat) (s : σ), i < 256 → forDeg d body fuel i s = none := by
  intro fuel
  induction fuel with
  | zero => intro i s _; rfl
  | succ f ih =>
    intro i s hi
    rw [forDeg_succ _ _ _ _ _ (by omega)]
    cases hr : body i (by omega) s with
    | none => rfl
    | some r =>
      cases r with
      | error e => exact absurd hr (hb i (by omega) s e)
      | ok s' => exact ih _ s' (Nat.mod_lt _ (by norm_num))

theorem except_map_eq_bind {α β : Type} (f : α → β) (r : Except Error α) :
    Except.map f r = r >>= fun a => pure (f a) := by
  cases r <;> rfl

theorem Pol.addFuel_eq {d : Nat} (hd : d ≤ 254) (fuel : Nat) (hf : 256 ≤ fuel)
    (p q : Pol d) : Pol.addFuel fuel p q = some (Pol.add p q) := by
  unfold Pol.addFuel Pol.add
  rw [forDeg_eq_fold d hd _
    (fun (sum : Fin (d + 1) → 𝔽₄) i => do
      let s ← 𝔽₄.add (p.coeffs_ i) (q.coeffs_ i)
      pure (Function.update sum i s))
    (fun _ _ _ => rfl) (d + 1) 0 (by omega) fuel (by omega)]
  rw [List.drop_zero, Option.map_some', except_map_eq_bind]

theorem Pol.evalFuel_eq {d : Nat} (hd : d ≤ 254) (fuel : Nat) (hf : 256 ≤ fuel)
    (p : Pol d) (x : 𝔽₄) : Pol.evalFuel fuel p x = some (Pol.eval p x) := by
  unfold Pol.evalFuel Pol.eval
  rw [forDeg_eq_fold d hd _
    (fun (st : 𝔽₄ × 𝔽₄) i => do
      let scalar_pow_i ← 𝔽₄.mul st.2 x
      let t ← 𝔽₄.mul (p.coeffs_ i) scalar_pow_i
      let result ← 𝔽₄.add st.1 t
      pure (result, scalar_pow_i))
    (fun _ _ _ => rfl) d 1 (by omega) fuel (by omega)]
  rw [List.finRange_succ_eq_map, List.drop_one, List.tail_cons, List.foldlM_map,
    Option.map_some', except_map_eq_bind]

theorem Pol.mulFuel_eq {d : Nat} (hd : d ≤ 254) (fuel : Nat) (hf : 256 ≤ fuel)
    (p q : Pol d) : Pol.mulFuel fuel p q = some (Pol.mul p q) := by
  unfold Pol.mulFuel Pol.mul
  split
  · rfl
  · rw [forDeg_eq_fold d hd _
      (fun (prod : Fin (d + 1) → 𝔽₄) (i : Fin (d + 1)) =>
        (List.finRange (i.val + 1)).foldlM
          (fun (prod : Fin (d + 1) → 𝔽₄) (j : Fin (i.val + 1)) => do
            let t ← 𝔽₄.mul (p.coeffs_ ⟨j.val, by omega⟩)
              (q.coeffs_ ⟨i.val - j.val, by omega⟩)
            let s ← 𝔽₄.add (prod i) t
            pure (Function.update prod i s))
          prod)
      ?_ (d + 1) 0 (by omega) fuel (by omega)]
    · rw [List.drop_zero, Option.map_some', except_map_eq_bind]
    · intro i hi s
      rw [forDeg_eq_fold i (by omega) _
        (fun (prod : Fin (d + 1) → 𝔽₄) (j : Fin (i + 1)) => do
          let t ← 𝔽₄.mul (p.coeffs_ ⟨j.val, by omega⟩) (q.coeffs_ ⟨i - j.val, by omega⟩)
          let s ← 𝔽₄.add (prod ⟨i, Nat.lt_succ_of_le hi⟩) t
          pure (Function.update prod ⟨i, Nat.lt_succ_of_le hi⟩ s))
        (fun _ _ _ => rfl) (i + 1) 0 (by omega) fuel (by omega)]
      rw [List.drop_zero]

theorem Pol.printFuel_eq {d : Nat} (hd : d ≤ 254) (fuel : Nat) (hf : 256 ≤ fuel)
    (os : String) (p : Pol d) : Pol.printFuel fuel os p = some (Pol.print os p) := by
  unfold Pol.printFuel Pol.print
  rw [forDeg_eq_fold d hd _
    (fun (os : String) (i : Fin (d + 1)) =>
      match d - i.val with
      | 0 => 𝔽₄.print os (p.coeffs_ ⟨d - i.val, by omega⟩)
      | 1 => do
        let os ← 𝔽₄.print os (p.coeffs_ ⟨d - i.val, by omega⟩)
        pure (os ++ ".x + ")
      | _ + 2 => do
        let os ← 𝔽₄.print os (p.coeffs_ ⟨d - i.val, by omega⟩)
        pure (os ++ ".x^" ++ toString (d - i.val) ++ " + "))
    (fun _ _ _ => rfl) (d + 1) 0 (by omega) fuel (by omega),
    List.drop_zero]

theorem lagrange.termLoopFuel_eq {d : Nat} (hd : d ≤ 254) (fuel : Nat) (hf : 256 ≤ fuel)
    (xs ys : Fin (d + 1) → 𝔽₄) (i : Fin (d + 1)) (t : Pol d) :
    lagrange.termLoopFuel fuel xs ys i t =
      some (lagrange.termLoop xs ys i (List.finRange (d + 1)) t) := by
  unfold lagrange.termLoopFuel lagrange.termLoop
  rw [forDeg_eq_fold d hd _ _ ?_ (d + 1) 0 (by omega) fuel (by omega), List.drop_zero]
  intro j hj s
  by_cases hij : i = ⟨j, Nat.lt_succ_of_le hj⟩
  · simp only [if_pos hij]; rfl
  · simp only [if_neg hij]
    cases lagrange.factor xs ys i ⟨j, Nat.lt_succ_of_le hj⟩ with
    | error e => rfl
    | ok f => simp only [ok_bind, Pol.mulFuel_eq hd fuel hf]

theorem lagrangeFuel_eq {d : Nat} (hd : d ≤ 254) (fuel : Nat) (hf : 256 ≤ fuel)
    (xs ys : Fin (d + 1) → 𝔽₄) : lagrangeFuel fuel xs ys = some (lagrange xs ys) := by
  unfold lagrangeFuel lagrange
  rw [forDeg_eq_fold d hd _ _ ?_ (d + 1) 0 (by omega) fuel (by omega), List.drop_zero]
  intro i hi s
  simp only [lagrange.termLoopFuel_eq hd fuel hf]
  cases lagrange.termLoop xs ys ⟨i, Nat.lt_succ_of_le hi⟩ (List.finRange (d + 1))
      (Pol.ofList [1]) with
  | error e => rfl
  | ok t => simp only [ok_bind, Pol.addFuel_eq hd fuel hf]

theorem Pol.evalFuel_diverges (p : Pol 255) (x : 𝔽₄) (fuel : Nat) :
    Pol.evalFuel fuel p x = none := by
  unfold Pol.evalFuel
  rw [forDeg_diverges 255 le_rfl _ ?_ fuel 1 _ (by norm_num)]
  · rfl
  · intro i h s e
    simp [𝔽₄.mul_ok, 𝔽₄.add_ok]

theorem Pol.addFuel_diverges (p q : Pol 255) (fuel : Nat) :
    Pol.addFuel fuel p q = none := by
  unfold Pol.addFuel
  rw [forDeg_diverges 255 le_rfl _ ?_ fuel 0 _ (by norm_num)]
  · rfl
  · intro i h s e
    simp [𝔽₄.add_ok]

theorem Pol.mulFuel_diverges (p q : Pol 255) (h : ¬ 255 < p.deg + q.deg) (fuel : Nat) :
    Pol.mulFuel fuel p q = none := by
  unfold Pol.mulFuel
  rw [if_neg h, forDeg_diverges 255 le_rfl _ ?_ fuel 0 _ (by norm_num)]
  · rfl
  · intro i hi s e
    apply forDeg_no_error
    intro j hj s' e'
    simp [𝔽₄.mul_ok, 𝔽₄.add_ok]

theorem Pol.printFuel_diverges (p : Pol 255) (os : String) (fuel : Nat) :
    Pol.printFuel fuel os p = none := by
  unfold Pol.printFuel
  rw [forDeg_diverges 255 le_rfl _ ?_ fuel 0 _ (by norm_num)]
  intro i h s e
  split <;> simp [𝔽₄.print_text]

theorem lagrangeFuel_diverges (xs ys : Fin (255 + 1) → 𝔽₄) (h : xs 0 ≠ xs 1) (fuel : Nat) :
    lagrangeFuel (d := 255) fuel xs ys = none := by
  cases fuel with
  | zero => rfl
  | succ f =>
    have hterm : lagrange.termLoopFuel (f + 1) xs ys 0 (Pol.ofList [1]) = none := by
      unfold lagrange.termLoopFuel
      rw [forDeg_succ _ _ _ _ _ (Nat.zero_le _)]
      simp only [Fin.zero_eta, if_true]
      cases f with
      | zero => rfl
      | succ g =>
        rw [forDeg_succ _ _ _ _ _ (by norm_num)]
        have h01 : (0 : Fin (255 + 1)) ≠ ⟨(0 + 1) % 256, by norm_num⟩ := by decide
        rw [if_neg h01]
        have hx : xs 0 ≠ xs ⟨(0 + 1) % 256, by norm_num⟩ := h
        rw [lagrange.factor_of_ne xs ys _ _ hx]
        simp only []
        rw [Pol.mulFuel_diverges]
        have h1 : (Pol.ofList [1] : Pol 255).deg = 0 :=
          Nat.le_zero.mp (Pol.deg_ofList_le _)
        have h2 := Pol.deg_le (Pol.ofList
          [ys 0 * xs ⟨(0 + 1) % 256, by norm_num⟩ / (xs ⟨(0 + 1) % 256, by norm_num⟩ - xs 0),
            ys 0 / (xs 0 - xs ⟨(0 + 1) % 256, by norm_num⟩)] : Pol 255)
        omega
    unfold lagrangeFuel
    rw [forDeg_succ _ _ _ _ _ (Nat.zero_le _)]
    simp only [Fin.zero_eta, hterm]

/-! ## The properties -/

/-- C1 (the code at a failing input): at degree bound 2, for the pairwise
distinct x-coordinates `0, 1, α` and the y-values `α, 0, 0`, `lagrange` returns
the polynomial `{{α+1, 1, α}}`, which evaluates at `xs[0] = 0` to `α + 1` and not
to `ys[0] = α`; at degree bound 3, for `0, 1, α, α+1` and `α, 0, 0, 0`, the
returned polynomial evaluates at `xs[0]` to `1`. -/
theorem lagrange_roundtrip_fails :
    lagrange (d := 2) ![0, 1, α] ![α, 0, 0] = .ok (Pol.ofList [⟨3⟩, 1, α]) ∧
    Pol.eval (Pol.ofList [⟨3⟩, 1, α] : Pol 2) 0 = .ok ⟨3⟩ ∧
    (lagrange (d := 2) ![0, 1, α] ![α, 0, 0] >>= fun r => Pol.eval r 0) ≠ .ok α ∧
    (lagrange (d := 3) ![0, 1, α, ⟨3⟩] ![α, 0, 0, 0] >>= fun r => Pol.eval r 0) = .ok 1 := by
  refine ⟨?_, ?_, ?_, ?_⟩ <;> decide

/-- C2: at degree bound 1, for all `x0 ≠ x1` and all `y0`, `y1`, `lagrange`
returns a polynomial that evaluates to `y0` at `x0` and to `y1` at `x1`;
`lagrange({1, α}, {1, α})` is `Pol{{0, 1}}`, and `lagrange({1, α}, {α, 1})`
evaluated at `1` is `α`. -/
theorem lagrange_deg1 :
    (∀ x0 x1 y0 y1 : 𝔽₄, x0 ≠ x1 →
      ∃ r, lagrange (d := 1) ![x0, x1] ![y0, y1] = .ok r ∧
        Pol.eval r x0 = .ok y0 ∧ Pol.eval r x1 = .ok y1) ∧
    lagrange (d := 1) ![1, α] ![1, α] = .ok (Pol.ofList [0, 1]) ∧
    (lagrange (d := 1) ![1, α] ![α, 1] >>= fun r => Pol.eval r 1) = .ok α := by
  refine ⟨?_, by decide, by decide⟩
  have key : ∀ x0 x1 y0 y1 : 𝔽₄, x0 ≠ x1 →
      (lagrange (d := 1) ![x0, x1] ![y0, y1] >>= fun r =>
        Pol.eval r x0 >>= fun v0 => Pol.eval r x1 >>= fun v1 =>
          (pure (v0, v1) : Except Error (𝔽₄ × 𝔽₄))) = .ok (y0, y1) := by
    decide!
  intro x0 x1 y0 y1 hx
  have h := key x0 x1 y0 y1 hx
  cases hr : lagrange (d := 1) ![x0, x1] ![y0, y1] with
  | error e => rw [hr] at h; cases h
  | ok r =>
    rw [hr, ok_bind, Pol.eval_eq_ok, Pol.eval_eq_ok, ok_bind, ok_bind] at h
    have h' := Except.ok.inj h
    refine ⟨r, rfl, ?_, ?_⟩
    · rw [Pol.eval_eq_ok]; exact congrArg Except.ok (congrArg Prod.fst h')
    · rw [Pol.eval_eq_ok]; exact congrArg Except.ok (congrArg Prod.snd h')

/-- C3 (the claim up to degree bound 254, and the code at the failing bound 255):
for `1 ≤ d ≤ 254`, when two of the x-coordinates coincide, `lagrange<𝔽₄, d>`
throws the `std::invalid_argument` of the field's `operator/`, and neither the
degree-overflow error nor a polynomial comes back, as for the x-coordinates
`1, α, 1`; for `d = 255`, where x-coordinates always coincide, the call does not
end when `xs[0] ≠ xs[1]`: the first `term_i *= …` never leaves the loops of
`operator*`. -/
theorem lagrangeFuel_repeated_x :
    (∀ (d : Nat), d ≤ 254 → ∀ (xs ys : Fin (d + 1) → 𝔽₄) (i j : Fin (d + 1)),
      i ≠ j → xs i = xs j → ∀ fuel, 256 ≤ fuel →
        lagrangeFuel fuel xs ys = some (.error .invalid_argument)) ∧
    lagrangeFuel (d := 2) 256 ![1, α, 1] ![α, 1, 0] = some (.error .invalid_argument) ∧
    (∀ (xs ys : Fin (255 + 1) → 𝔽₄), xs 0 ≠ xs 1 →
      (∃ i j, i ≠ j ∧ xs i = xs j) ∧ ∀ fuel, lagrangeFuel (d := 255) fuel xs ys = none) := by
  have main : ∀ (d : Nat), d ≤ 254 → ∀ (xs ys : Fin (d + 1) → 𝔽₄) (i j : Fin (d + 1)),
      i ≠ j → xs i = xs j → ∀ fuel, 256 ≤ fuel →
        lagrangeFuel fuel xs ys = some (.error .invalid_argument) := by
    intro d hd xs ys i j hij hx fuel hf
    rw [lagrangeFuel_eq hd fuel hf, lagrange_invalid_of_repeat xs ys i j hij hx]
  refine ⟨main, main 2 (by norm_num) _ _ 0 2 (by decide) (by decide) 256 le_rfl, ?_⟩
  intro xs ys h
  refine ⟨?_, fun fuel => lagrangeFuel_diverges xs ys h fuel⟩
  by_contra hno
  have hinj : Function.Injective xs := by
    intro a b hab
    by_contra hne
    exact hno ⟨a, b, hne, hab⟩
  have hcard := Fintype.card_le_of_injective xs hinj
  have h4 : Fintype.card 𝔽₄ = 4 := rfl
  rw [Fintype.card_fin, h4] at hcard
  omega


/-- C4: two polynomials of `Pol<𝔽₄, d>` that evaluate to the same value at each
of `d + 1` pairwise-distinct elements are equal under `operator==`; this holds
for every degree bound, in particular for `d` in `{0, 1, 2, 3}`. -/
theorem Pol.eq_of_agree {d : Nat} (p q : Pol d) (xs : Fin (d + 1) → 𝔽₄)
    (hxs : ∀ i j, i ≠ j → xs i ≠ xs j)
    (h : ∀ i, Pol.eval p (xs i) = Pol.eval q (xs i)) :
    Pol.eq p q = true := by
  rw [Pol.eq_iff_eq, Pol.ext_iff]
  have hinj : Function.Injective xs := by
    intro i j hij
    by_contra hne
    exact hxs i j hne hij
  have hz := Pol.coeffs_zero_of_roots (fun i => p.coeffs_ i - q.coeffs_ i) xs hinj
    (by
      intro k
      have hk := h k
      rw [Pol.eval_eq_ok, Pol.eval_eq_ok] at hk
      have hk' := Except.ok.inj hk
      simp only [sub_mul, Finset.sum_sub_distrib, hk', sub_self])
  intro i
  exact sub_eq_zero.mp (hz i)

/-- Witness for C4 at degree bound 1: `𝑥` and `Pol{{0, 1}}` agree at `0` and `α`. -/
theorem Pol.eq_of_agree_witness : Pol.eq (Pol.x 1) ⟨![0, 1]⟩ = true :=
  Pol.eq_of_agree (Pol.x 1) ⟨![0, 1]⟩ ![0, α] (by decide) (by decide)

/-- C5: the GF(4) field axioms hold for the table-based operators.  Over all
four elements `+` has identity `0`, `a + (0 - a)` is `0`, and `+` is commutative
and associative; over the three non-zero elements `*` has identity `1`,
`a * (1 / a)` is `1`, and `*` is commutative and associative; `*` distributes
over `+` on all 64 triples.  Every operator call involved returns a value. -/
theorem 𝔽₄.is_field :
    (∀ a : 𝔽₄, 𝔽₄.add a 0 = .ok a) ∧
    (∀ a : 𝔽₄, (𝔽₄.sub 0 a >>= fun i => 𝔽₄.add a i) = .ok 0) ∧
    (∀ a b : 𝔽₄, ∃ r, 𝔽₄.add a b = .ok r ∧ 𝔽₄.add b a = .ok r) ∧
    (∀ a b c : 𝔽₄, ∃ r, (𝔽₄.add a b >>= fun s => 𝔽₄.add s c) = .ok r ∧
      (𝔽₄.add b c >>= fun s => 𝔽₄.add a s) = .ok r) ∧
    (∀ a : 𝔽₄, a ≠ 0 → 𝔽₄.mul a 1 = .ok a) ∧
    (∀ a : 𝔽₄, a ≠ 0 → (𝔽₄.div 1 a >>= fun i => 𝔽₄.mul a i) = .ok 1) ∧
    (∀ a b : 𝔽₄, a ≠ 0 → b ≠ 0 → ∃ r, 𝔽₄.mul a b = .ok r ∧ 𝔽₄.mul b a = .ok r) ∧
    (∀ a b c : 𝔽₄, a ≠ 0 → b ≠ 0 → c ≠ 0 →
      ∃ r, (𝔽₄.mul a b >>= fun s => 𝔽₄.mul s c) = .ok r ∧
        (𝔽₄.mul b c >>= fun s => 𝔽₄.mul a s) = .ok r) ∧
    (∀ a b c : 𝔽₄, ∃ r, (𝔽₄.add b c >>= fun s => 𝔽₄.mul a s) = .ok r ∧
      (𝔽₄.mul a b >>= fun u => 𝔽₄.mul a c >>= fun v => 𝔽₄.add u v) = .ok r) := by
  refine ⟨?_, ?_, ?_, ?_, ?_, ?_, ?_, ?_, ?_⟩ <;> decide

/-- C6: `a / b` throws `std::invalid_argument` when `b` is the zero element and
only then; for `b ≠ 0` it returns an `x` with `b * x == a`, the only element
with that property; and `1 / α` is `α + 1`. -/
theorem 𝔽₄.div_contract :
    (∀ a b : 𝔽₄, b = 0 → 𝔽₄.div a b = .error .invalid_argument) ∧
    (∀ a b : 𝔽₄, b ≠ 0 → ∃ x, 𝔽₄.div a b = .ok x ∧ 𝔽₄.mul b x = .ok a ∧
      ∀ y, 𝔽₄.mul b y = .ok a → y = x) ∧
    (𝔽₄.add α 1 >>= fun s => 𝔽₄.div 1 α >>= fun q => pure (𝔽₄.eq q s)) = .ok true := by
  refine ⟨?_, ?_, ?_⟩ <;> decide

/-- C7 (the claim up to degree bound 254, and the code at the failing bound 255):
for `d ≤ 254`, `p * q` throws `std::overflow_error` when
`p.deg() + q.deg() > d` and only then, and otherwise returns `r` with
`r[i] = Σ_{j=0..i} p[j]·q[i-j]` for every `i` in `[0, d]`; for `d = 255` the
degree check still throws, but a product that passes it is never returned: the
loop `for (deg_t i {}; i <= d; ++i)` does not end. -/
theorem Pol.mulFuel_contract :
    (∀ (d : Nat), d ≤ 254 → ∀ (p q : Pol d) (fuel : Nat), 256 ≤ fuel →
      (d < p.deg + q.deg → Pol.mulFuel fuel p q = some (.error .overflow_error)) ∧
      (¬ d < p.deg + q.deg → ∃ r, Pol.mulFuel fuel p q = some (.ok r) ∧
        ∀ i : Fin (d + 1), r.coeffs_ i = ∑ j : Fin (i.val + 1),
          p.coeffs_ ⟨j.val, by omega⟩ * q.coeffs_ ⟨i.val - j.val, by omega⟩)) ∧
    Pol.mulFuel 256 (Pol.x 2) (Pol.x 2) = some (.ok (Pol.ofList [0, 0, 1])) ∧
    (∀ (p q : Pol 255) (fuel : Nat),
      (255 < p.deg + q.deg → Pol.mulFuel fuel p q = some (.error .overflow_error)) ∧
      (¬ 255 < p.deg + q.deg → Pol.mulFuel fuel p q = none)) := by
  refine ⟨?_, ?_, ?_⟩
  · intro d hd p q fuel hf
    rw [Pol.mulFuel_eq hd fuel hf, Pol.mul_eq_ok]
    constructor
    · intro h; rw [if_pos h]
    · intro h; rw [if_neg h]; exact ⟨_, rfl, fun _ => rfl⟩
  · rw [Pol.mulFuel_eq (by norm_num) 256 le_rfl]
    exact congrArg some (by decide)
  · intro p q fuel
    constructor
    · intro h
      unfold Pol.mulFuel
      rw [if_pos h]
    · intro h
      exact Pol.mulFuel_diverges p q h fuel


/-- C8: `p * q` throws exactly when the untruncated product of `p` and `q` has
a non-zero coefficient `Σ_j p[j]·q[n-j]` at some `n` with `d < n ≤ 2d`; and when
`p * q` returns `r`, every coefficient of the untruncated product is the
coefficient of `r` at the same power (so it is `0` above `d`); the zero
polynomial, whose `deg()` is `0`, is included. -/
theorem Pol.mul_overflow_iff {d : Nat} (p q : Pol d) :
    ((∃ e, Pol.mul p q = .error e) ↔
      ∃ n, d < n ∧ n ≤ 2 * d ∧ Pol.fullConv p q n ≠ 0) ∧
    (∀ r, Pol.mul p q = .ok r → ∀ n, Pol.fullConv p q n = r.coeff n) := by
  rw [Pol.mul_eq_ok]
  constructor
  · constructor
    · rintro ⟨e, he⟩
      have h : d < p.deg + q.deg := by
        by_contra hn; rw [if_neg hn] at he; cases he
      have hp := p.deg_le
      have hq := q.deg_le
      refine ⟨p.deg + q.deg, h, by omega, ?_⟩
      rw [Pol.fullConv_lead]
      exact mul_ne_zero (p.coeff_deg_ne_zero (by omega)) (q.coeff_deg_ne_zero (by omega))
    · rintro ⟨n, hn, _, hne⟩
      have h : d < p.deg + q.deg := by
        by_contra hlt
        exact hne (Pol.fullConv_zero_above p q (by omega))
      exact ⟨_, if_pos h⟩
  · intro r hr n
    by_cases h : d < p.deg + q.deg
    · rw [if_pos h] at hr; cases hr
    · rw [if_neg h] at hr
      cases hr
      by_cases hn : n < d + 1
      · rw [Pol.coeff_of_le _ hn]
        exact (Pol.coeffs_eq_fullConv p q ⟨n, hn⟩).symm
      · rw [Pol.coeff_of_gt _ (by omega)]
        exact Pol.fullConv_zero_above p q (by omega)

/-- C9 (the claim up to degree bound 254, and the code at the failing bound 255):
for `d ≤ 254`, `p(x)` never throws and returns `Σ_{i=0..d} p[i]·x^i`, where `x^0`
is `1` also for `x = 0`, and the polynomial `𝑥` of degree bound 1 evaluated at
`α` gives `α`; for `d = 255` the call `p(x)` does not end, since
`for (deg_t i {1}; i <= d; ++i)` has no exit. -/
theorem Pol.evalFuel_contract :
    (∀ (d : Nat), d ≤ 254 → ∀ (p : Pol d) (x : 𝔽₄) (fuel : Nat), 256 ≤ fuel →
      Pol.evalFuel fuel p x = some (.ok (∑ i : Fin (d + 1), p.coeffs_ i * x ^ i.val))) ∧
    (∀ x : 𝔽₄, x ^ 0 = 1) ∧
    Pol.evalFuel 256 (Pol.x 1) α = some (.ok α) ∧
    (∀ (p : Pol 255) (x : 𝔽₄) (fuel : Nat), Pol.evalFuel fuel p x = none) := by
  refine ⟨?_, pow_zero, ?_, Pol.evalFuel_diverges⟩
  · intro d hd p x fuel hf
    rw [Pol.evalFuel_eq hd fuel hf, Pol.eval_eq_ok]
  · rw [Pol.evalFuel_eq (by norm_num) 256 le_rfl]
    exact congrArg some (by decide)


/-- C10: starting from the all-zero polynomial of `Pol<𝔽₄, d>`, the values
obtained by applying `++` once, twice, …, `4^(d+1)` times are pairwise distinct,
every polynomial of the type is one of them, and the last one is the all-zero
polynomial again; this holds for every degree bound, in particular for `d` in
`{0, 1, 2, 3}`. -/
theorem Pol.incr_enumerates (d : Nat) :
    (∀ i j, 1 ≤ i → i < j → j ≤ 4 ^ (d + 1) →
      Pol.incr^[i] (0 : Pol d) ≠ Pol.incr^[j] 0) ∧
    (∀ p : Pol d, ∃ k, 1 ≤ k ∧ k ≤ 4 ^ (d + 1) ∧ Pol.incr^[k] 0 = p) ∧
    Pol.incr^[4 ^ (d + 1)] (0 : Pol d) = 0 := by
  have hpos : 0 < 4 ^ (d + 1) := Nat.pow_pos (by norm_num)
  refine ⟨?_, ?_, ?_⟩
  · intro i j hi hij hj heq
    have h := congrArg (fun p : Pol d => Pol.rank p.coeffs_ (List.finRange (d + 1))) heq
    simp only [Pol.rank_iterate] at h
    rw [Nat.mod_eq_of_lt (by omega)] at h
    rcases Nat.lt_or_ge j (4 ^ (d + 1)) with hlt | hge
    · rw [Nat.mod_eq_of_lt hlt] at h; omega
    · have hj' : j = 4 ^ (d + 1) := by omega
      rw [hj', Nat.mod_self] at h; omega
  · intro p
    have hp := Pol.rank_lt p.coeffs_ (List.finRange (d + 1))
    rw [List.length_finRange] at hp
    by_cases h0 : Pol.rank p.coeffs_ (List.finRange (d + 1)) = 0
    · refine ⟨4 ^ (d + 1), by omega, le_rfl, Pol.eq_of_rank_eq _ _ ?_⟩
      rw [Pol.rank_iterate, Nat.mod_self, h0]
    · refine ⟨Pol.rank p.coeffs_ (List.finRange (d + 1)), by omega, by omega,
        Pol.eq_of_rank_eq _ _ ?_⟩
      rw [Pol.rank_iterate, Nat.mod_eq_of_lt hp]
  · apply Pol.eq_of_rank_eq
    rw [Pol.rank_iterate, Nat.mod_self, Pol.rank_zero]

/-- C11: polynomial addition is an abelian group, for every degree bound and so
for `d` in `{0, 1, 2, 3}`: `p + 0 == p`, `p + (0 - p) == 0`, `p + q == q + p` and
`(p + q) + r == p + (q + r)`, with `0` the all-zero polynomial; `+` and `-` never
throw, and their result holds at each index the field `+`, `-` of the two
coefficients. -/
theorem Pol.is_abelian_group {d : Nat} (p q r : Pol d) :
    Pol.add p 0 = .ok p ∧
    (Pol.sub 0 p >>= fun i => Pol.add p i) = .ok 0 ∧
    (∃ s, Pol.add p q = .ok s ∧ Pol.add q p = .ok s) ∧
    (∃ s, (Pol.add p q >>= fun u => Pol.add u r) = .ok s ∧
      (Pol.add q r >>= fun v => Pol.add p v) = .ok s) ∧
    (∃ s, Pol.add p q = .ok s ∧
      ∀ i, 𝔽₄.add (p.coeffs_ i) (q.coeffs_ i) = .ok (s.coeffs_ i)) ∧
    (∃ s, Pol.sub p q = .ok s ∧
      ∀ i, 𝔽₄.sub (p.coeffs_ i) (q.coeffs_ i) = .ok (s.coeffs_ i)) := by
  refine ⟨?_, ?_, ?_, ?_, ?_, ?_⟩
  · rw [Pol.add_eq_ok]
    exact congrArg Except.ok (Pol.ext_iff.mpr fun i => by simp [Pol.zero_coeffs])
  · rw [Pol.sub_eq_ok, ok_bind, Pol.add_eq_ok]
    exact congrArg Except.ok (Pol.ext_iff.mpr fun i => by simp [Pol.zero_coeffs])
  · refine ⟨_, Pol.add_eq_ok p q, ?_⟩
    rw [Pol.add_eq_ok]
    exact congrArg Except.ok (Pol.ext_iff.mpr fun i => add_comm _ _)
  · refine ⟨⟨fun i => p.coeffs_ i + q.coeffs_ i + r.coeffs_ i⟩, ?_, ?_⟩
    · rw [Pol.add_eq_ok, ok_bind, Pol.add_eq_ok]
    · rw [Pol.add_eq_ok, ok_bind, Pol.add_eq_ok]
      exact congrArg Except.ok (Pol.ext_iff.mpr fun i => (add_assoc _ _ _).symm)
  · exact ⟨_, Pol.add_eq_ok p q, fun i => 𝔽₄.add_ok _ _⟩
  · exact ⟨_, Pol.sub_eq_ok p q, fun i => 𝔽₄.sub_ok _ _⟩

/-- C12: the constructor `𝔽₄{v}` returns an object, whose `value_` is `v`, when
`v ≤ 3`, and throws `std::out_of_range` for every other `v`, in particular for
`4` and for the largest `val_t`; no object has a `value_` outside `[0, 3]`. -/
theorem 𝔽₄.ctor_contract (v : Nat) :
    (v ≤ 3 → ∃ a, 𝔽₄.ctor v = .ok a ∧ a.value_.val = v) ∧
    (3 < v → 𝔽₄.ctor v = .error .out_of_range) ∧
    (∀ a, 𝔽₄.ctor v = .ok a → a.value_.val = v ∧ v ≤ 3) ∧
    𝔽₄.ctor 4 = .error .out_of_range ∧ 𝔽₄.ctor 255 = .error .out_of_range := by
  refine ⟨?_, ?_, ?_, by decide, by decide⟩
  · intro h
    refine ⟨⟨⟨v, by omega⟩⟩, ?_, rfl⟩
    unfold 𝔽₄.ctor
    rw [dif_neg (by omega)]
  · intro h
    unfold 𝔽₄.ctor
    rw [dif_pos h]
  · intro a h
    unfold 𝔽₄.ctor at h
    split at h
    · cases h
    · cases h
      exact ⟨rfl, by omega⟩

/-- C13: for all elements `a`, `b`, the calls `a + b`, `a - b`, `a * b` read a
table entry in `[0, 3]` and return; `-a` and `++a` have a `value_` in `[0, 3]`;
for `b ≠ 0` the call `a / b` reads a table entry in `[0, 3]` and returns; the
filler `4` sits in column 0 of the division table only, where `a / b` throws
`std::invalid_argument` before the constructor is reached; and `a * 0 == 0`. -/
theorem 𝔽₄.tag_invariant :
    (∀ a b : 𝔽₄, (𝔽₄.addition.get a.value_).get b.value_ ≤ 3 ∧
      ∃ r, 𝔽₄.add a b = .ok r ∧ 𝔽₄.sub a b = .ok r ∧ r.value_.val ≤ 3) ∧
    (∀ a b : 𝔽₄, (𝔽₄.multiplication.get a.value_).get b.value_ ≤ 3 ∧
      ∃ r, 𝔽₄.mul a b = .ok r ∧ r.value_.val ≤ 3) ∧
    (∀ a : 𝔽₄, (𝔽₄.neg a).value_.val ≤ 3 ∧ (𝔽₄.incr a).value_.val ≤ 3) ∧
    (∀ a b : 𝔽₄, b ≠ 0 → (𝔽₄.division.get a.value_).get b.value_ ≤ 3 ∧
      ∃ r, 𝔽₄.div a b = .ok r ∧ r.value_.val ≤ 3) ∧
    (∀ a : 𝔽₄, (𝔽₄.division.get a.value_).get 0 = 4 ∧
      𝔽₄.div a 0 = .error .invalid_argument) ∧
    (∀ a : 𝔽₄, 𝔽₄.mul a 0 = .ok 0) := by
  refine ⟨?_, ?_, ?_, ?_, ?_, ?_⟩ <;> decide

/-- C14: the elements `0`, `1`, `α`, `α + 1` are pairwise distinct, and `++`
takes `0` to `1`, `1` to `α`, `α` to `α + 1` and `α + 1` back to `0`, so that
from `0` it visits all four elements once before it returns to `0`. -/
theorem 𝔽₄.incr_cycle :
    𝔽₄.add α 1 = .ok ⟨3⟩ ∧
    ([(0 : 𝔽₄), 1, α, ⟨3⟩].Pairwise fun a b => 𝔽₄.ne a b = true) ∧
    𝔽₄.incr 0 = 1 ∧ 𝔽₄.incr 1 = α ∧ 𝔽₄.incr α = ⟨3⟩ ∧ 𝔽₄.incr ⟨3⟩ = 0 ∧
    (∀ a : 𝔽₄, a = 0 ∨ a = 𝔽₄.incr 0 ∨ a = 𝔽₄.incr (𝔽₄.incr 0) ∨
      a = 𝔽₄.incr (𝔽₄.incr (𝔽₄.incr 0))) ∧
    𝔽₄.incr (𝔽₄.incr (𝔽₄.incr (𝔽₄.incr 0))) = 0 := by
  refine ⟨?_, ?_, ?_, ?_, ?_, ?_, ?_, ?_⟩ <;> decide

/-- C15: `p.deg()` is at most `d`; when some coefficient is non-zero it is the
largest index with a non-zero coefficient; it is `0` for the all-zero
polynomial; and `Pol<𝔽₄, 2>{{1, α, α+1}}.deg()` is `2`. -/
theorem Pol.deg_convention {d : Nat} (p : Pol d) :
    p.deg ≤ d ∧
    ((∃ i, 𝔽₄.ne (p.coeffs_ i) 0 = true) →
      ∃ i : Fin (d + 1), i.val = p.deg ∧ 𝔽₄.ne (p.coeffs_ i) 0 = true ∧
        ∀ j : Fin (d + 1), 𝔽₄.ne (p.coeffs_ j) 0 = true → j ≤ i) ∧
    ((∀ i, p.coeffs_ i = 0) → p.deg = 0) ∧
    (Pol.ofList [1, α, ⟨3⟩] : Pol 2).deg = 2 := by
  refine ⟨p.deg_le, ?_, ?_, by decide⟩
  · rintro ⟨i, hi⟩
    rw [𝔽₄.ne_iff, ← Pol.coeff_val] at hi
    have hle := Pol.le_deg_of_coeff_ne_zero p hi
    refine ⟨⟨p.deg, Nat.lt_succ_of_le p.deg_le⟩, rfl, ?_, ?_⟩
    · rw [𝔽₄.ne_iff, ← Pol.coeff_val]
      by_cases h0 : p.deg = 0
      · have : i.val = 0 := by omega
        simpa [h0, this] using hi
      · exact Pol.coeff_deg_ne_zero p h0
    · intro j hj
      rw [𝔽₄.ne_iff, ← Pol.coeff_val] at hj
      exact Pol.le_deg_of_coeff_ne_zero p hj
  · intro h
    by_contra h0
    apply Pol.coeff_deg_ne_zero p h0
    rw [Pol.coeff_of_le p (Nat.lt_succ_of_le p.deg_le)]
    exact h _

/-- C16 (the claim up to degree bound 254, and the code at the failing bound
255): a field element renders as `"0"`, `"1"`, `"alpha"` or `"alpha+1"` for the
`value_` 0, 1, 2, 3; for `d ≤ 254` a polynomial renders as its `d + 1` terms for
the powers `d, d-1, …, 0` in that order joined by `" + "`, the term for a power
`n ≥ 2` being `"<c>.x^<n>"`, for the power 1 `"<c>.x"` and for the power 0
`"<c>"`, with `<c>` the rendering of `p[n]`; `Pol<𝔽₄,2>{{α}} + 𝑥 + 𝑥*𝑥` is
`Pol<𝔽₄,2>{{α, 1, 1}}`, which renders as `"1.x^2 + 1.x + alpha"`; for `d = 255`
the rendering does not end, since `for (deg_t i {}; i <= d; ++i)` has no exit. -/
theorem Pol.printFuel_format :
    (𝔽₄.print "" 0 = .ok "0" ∧ 𝔽₄.print "" 1 = .ok "1" ∧
      𝔽₄.print "" α = .ok "alpha" ∧ 𝔽₄.print "" ⟨3⟩ = .ok "alpha+1") ∧
    (∀ c : 𝔽₄, 𝔽₄.print "" c = .ok c.text) ∧
    (∀ (d : Nat), d ≤ 254 → ∀ (p : Pol d) (fuel : Nat), 256 ≤ fuel →
      Pol.printFuel fuel "" p =
        some (.ok (String.intercalate " + " ((List.range (d + 1)).reverse.map p.term)))) ∧
    (∀ (d : Nat) (p : Pol d),
      (∀ n, p.term (n + 2) = (p.coeff (n + 2)).text ++ ".x^" ++ toString (n + 2)) ∧
      p.term 1 = (p.coeff 1).text ++ ".x" ∧ p.term 0 = (p.coeff 0).text) ∧
    (∃ s xx, Pol.addFuel 256 (Pol.ofList [α]) (Pol.x 2) = some (.ok s) ∧
      Pol.mulFuel 256 (Pol.x 2) (Pol.x 2) = some (.ok xx) ∧
      Pol.addFuel 256 s xx = some (.ok (Pol.ofList [α, 1, 1]))) ∧
    Pol.printFuel 256 "" (Pol.ofList [α, 1, 1] : Pol 2) = some (.ok "1.x^2 + 1.x + alpha") ∧
    (∀ (p : Pol 255) (os : String) (fuel : Nat), Pol.printFuel fuel os p = none) := by
  refine ⟨by decide, by decide, ?_, fun _ _ => ⟨fun _ => rfl, rfl, rfl⟩, ?_, ?_,
    Pol.printFuel_diverges⟩
  · intro d hd p fuel hf
    rw [Pol.printFuel_eq hd fuel hf, Pol.print_eq_ok]
    simp
  · refine ⟨Pol.ofList [α, 1], Pol.ofList [0, 0, 1], ?_, ?_, ?_⟩
    · rw [Pol.addFuel_eq (by norm_num) 256 le_rfl]
      exact congrArg some (by decide)
    · rw [Pol.mulFuel_eq (by norm_num) 256 le_rfl]
      exact congrArg some (by decide)
    · rw [Pol.addFuel_eq (by norm_num) 256 le_rfl]
      exact congrArg some (by decide)
  · rw [Pol.printFuel_eq (by norm_num) 256 le_rfl]
    exact congrArg some (by decide)


/-- C17 (as stated, refuted): `Pol<𝔽₄, 2>{{1}}` does not render as `"1"`. -/
theorem Pol.print_const_ne : Pol.print "" (Pol.ofList [1] : Pol 2) ≠ .ok "1" := by
  decide

/-- C17 (amended): `Pol<𝔽₄, 2>{{1}}`, with coefficients `[1, 0, 0]` in ascending
order, renders as exactly the string `"0.x^2 + 0.x + 1"`: every one of the
`d + 1` terms is written, a zero coefficient included. -/
theorem Pol.print_const : Pol.print "" (Pol.ofList [1] : Pol 2) = .ok "0.x^2 + 0.x + 1" := by
  decide

/-- C18: for pairwise-distinct x-coordinates (so `d ≤ 3`) and any y-values,
`lagrange<𝔽₄, d>` returns a polynomial: no division by zero and no degree
overflow occurs.  For each sample `i`, the inner loop run over the first `n`
indices returns a partial product whose `deg()` is at most the number `m` of
factors multiplied so far, and `m ≤ d`; this includes zero y-values. -/
theorem lagrange_total {d : Nat} (xs ys : Fin (d + 1) → 𝔽₄)
    (hxs : ∀ i j, i ≠ j → xs i ≠ xs j) :
    (∃ r, lagrange xs ys = .ok r) ∧
    ∀ (i : Fin (d + 1)) (n : Nat), ∃ t,
      lagrange.termLoop xs ys i ((List.finRange (d + 1)).take n) (Pol.ofList [1]) = .ok t ∧
      t.deg ≤ (((List.finRange (d + 1)).take n).filter (fun j => decide (j ≠ i))).length ∧
      (((List.finRange (d + 1)).take n).filter (fun j => decide (j ≠ i))).length ≤ d := by
  constructor
  · obtain ⟨r, hr, _⟩ := lagrange_at_samples xs ys hxs
    exact ⟨r, hr⟩
  · intro i n
    have h0 : (Pol.ofList [1] : Pol d).deg = 0 := Nat.le_zero.mp (Pol.deg_ofList_le _)
    have hlen : (((List.finRange (d + 1)).take n).filter
        (fun j => decide (j ≠ i))).length ≤ d := by
      exact le_trans ((List.take_sublist n _).filter _).length_le
        (le_of_eq (length_filter_ne_finRange i))
    obtain ⟨t, h1, h2, _⟩ := lagrange.termLoop_eval xs ys hxs i
      ((List.finRange (d + 1)).take n) (Pol.ofList [1]) (by omega)
    exact ⟨t, h1, by omega, hlen⟩

/-- Witness for C18 at degree bound 1: the samples `(1, α)` and `(α, 1)`. -/
theorem lagrange_total_witness :
    (∃ r, lagrange (d := 1) ![1, α] ![α, 1] = .ok r) :=
  (lagrange_total (d := 1) ![1, α] ![α, 1] (by decide)).1

/-- C19: for pairwise-distinct x-coordinates (so `d ≤ 3`) and any y-values, the
polynomial returned by `lagrange<𝔽₄, d>` evaluates at `xs[i]` to the `d`-fold
product `ys[i]·…·ys[i]`, which is `1` for `d = 0`. -/
theorem lagrange_value_at_sample {d : Nat} (xs ys : Fin (d + 1) → 𝔽₄)
    (hxs : ∀ i j, i ≠ j → xs i ≠ xs j) (i : Fin (d + 1)) :
    ∃ r, lagrange xs ys = .ok r ∧ Pol.eval r (xs i) = .ok (ys i ^ d) := by
  obtain ⟨r, hr, hval⟩ := lagrange_at_samples xs ys hxs
  refine ⟨r, hr, ?_⟩
  rw [Pol.eval_eq_ok, hval i]

/-- Witness for C19 at degree bound 2: the x-coordinates `0, 1, α`, the y-values
`α, 0, 0` and the sample `0`. -/
theorem lagrange_value_at_sample_witness :
    ∃ r, lagrange (d := 2) ![0, 1, α] ![α, 0, 0] = .ok r ∧
      Pol.eval r ((![0, 1, α] : Fin 3 → 𝔽₄) 0) = .ok ((![α, 0, 0] : Fin 3 → 𝔽₄) 0 ^ 2) :=
  lagrange_value_at_sample (d := 2) ![0, 1, α] ![α, 0, 0] (by decide) 0

/-- C20 (the claim up to degree bound 254, and the code at the failing bound
255): for `d ≤ 254`, `(p + q)(x)` is `p(x) + q(x)`, and whenever `p * q`
returns, `(p * q)(x)` is `p(x) * q(x)`, no call involved throwing; for
`d = 255` neither `p + q` nor `p(x)` ends. -/
theorem Pol.evalFuel_hom :
    (∀ (d : Nat), d ≤ 254 → ∀ (p q : Pol d) (x : 𝔽₄) (fuel : Nat), 256 ≤ fuel →
      (∃ s u v w, Pol.addFuel fuel p q = some (.ok s) ∧
        Pol.evalFuel fuel s x = some (.ok u) ∧ Pol.evalFuel fuel p x = some (.ok v) ∧
        Pol.evalFuel fuel q x = some (.ok w) ∧ 𝔽₄.add v w = .ok u) ∧
      (∀ r, Pol.mulFuel fuel p q = some (.ok r) →
        ∃ u v w, Pol.evalFuel fuel r x = some (.ok u) ∧
          Pol.evalFuel fuel p x = some (.ok v) ∧
          Pol.evalFuel fuel q x = some (.ok w) ∧ 𝔽₄.mul v w = .ok u)) ∧
    (∃ r, Pol.mulFuel 256 (Pol.x 2) (Pol.x 2) = some (.ok r) ∧
      Pol.evalFuel 256 r α = some (.ok ⟨3⟩) ∧ Pol.evalFuel 256 (Pol.x 2) α = some (.ok α) ∧
      𝔽₄.mul α α = .ok ⟨3⟩) ∧
    (∀ (p q : Pol 255) (x : 𝔽₄) (fuel : Nat),
      Pol.addFuel fuel p q = none ∧ Pol.evalFuel fuel p x = none) := by
  refine ⟨?_, ?_, fun p q x fuel => ⟨Pol.addFuel_diverges p q fuel,
    Pol.evalFuel_diverges p x fuel⟩⟩
  · intro d hd p q x fuel hf
    simp only [Pol.addFuel_eq hd fuel hf, Pol.evalFuel_eq hd fuel hf,
      Pol.mulFuel_eq hd fuel hf]
    constructor
    · refine ⟨_, _, _, _, congrArg some (Pol.add_eq_ok p q),
        congrArg some (Pol.eval_eq_ok _ x), congrArg some (Pol.eval_eq_ok p x),
        congrArg some (Pol.eval_eq_ok q x), ?_⟩
      rw [𝔽₄.add_ok]
      exact congrArg Except.ok (Pol.evalSum_add p q x).symm
    · intro r hr
      have hr' : Pol.mul p q = .ok r := Option.some.inj hr
      refine ⟨_, _, _, congrArg some (Pol.eval_eq_ok r x),
        congrArg some (Pol.eval_eq_ok p x), congrArg some (Pol.eval_eq_ok q x), ?_⟩
      rw [𝔽₄.mul_ok]
      exact congrArg Except.ok (Pol.evalSum_mul p q r hr' x).symm
  · refine ⟨Pol.ofList [0, 0, 1], ?_, ?_, ?_, by decide⟩
    · rw [Pol.mulFuel_eq (by norm_num) 256 le_rfl]
      exact congrArg some (by decide)
    · rw [Pol.evalFuel_eq (by norm_num) 256 le_rfl]
      exact congrArg some (by decide)
    · rw [Pol.evalFuel_eq (by norm_num) 256 le_rfl]
      exact congrArg some (by decide)
